import Mathlib

/-!
Shallow embedding of the SpicyDiff review bot (diff ingestion, LLM-output
validation, review orchestration, line reconciliation, context extraction)
together with proofs about the embedded operations.

Python strings are modelled as Lean `String`/`List Char`; Python `int` as
`Int` or `Nat` as appropriate; fallible operations return `Option`.
-/

namespace SpicyDiff

/-- Whitespace characters stripped by Python's `str.strip()` (ASCII range). -/
def isPySpace (c : Char) : Bool :=
  c = ' ' || c = '\t' || c = '\n' || c = '\r' || c = '\x0b' || c = '\x0c'

/-- `str.strip()` on a list of characters. -/
def pyStripList (l : List Char) : List Char :=
  ((l.dropWhile isPySpace).reverse.dropWhile isPySpace).reverse

/-- Python `str.strip()`. -/
def pyStrip (s : String) : String :=
  ⟨pyStripList s.toList⟩

/-- Python `str.lstrip()`. -/
def pyLstrip (s : String) : String :=
  ⟨s.toList.dropWhile isPySpace⟩

/-- Python `"sep".join(parts)`. -/
def pyJoin (sep : String) : List String → String
  | [] => ""
  | [x] => x
  | x :: y :: rest => x ++ sep ++ pyJoin sep (y :: rest)

/-- The characters of a markdown fence opener. -/
def fenceChars : List Char := ['`', '`', '`']

/-- `cleaned[first_newline + 1:]` when a newline exists: everything after the
first newline, `none` when the list has no newline (Python `find` = -1). -/
def afterFirstNewline : List Char → Option (List Char)
  | [] => none
  | c :: cs => if c = '\n' then some cs else afterFirstNewline cs

/-- Opening-fence removal: when the text starts with ``` drop everything up
to and including the first newline (or just the three backticks when the text
is a single line). -/
def stripFenceOpen (l : List Char) : List Char :=
  if l.take 3 = fenceChars then
    match afterFirstNewline l with
    | some rest => rest
    | none => l.drop 3
  else l

/-- Closing-fence removal: when the text ends with ``` drop the last three
characters. -/
def stripFenceClose (l : List Char) : List Char :=
  if l.reverse.take 3 = fenceChars then (l.reverse.drop 3).reverse else l

/-- `llm_client._strip_code_fences` on a list of characters: strip, remove an
opening fence, remove a trailing fence, strip again. -/
def stripCodeFencesList (l : List Char) : List Char :=
  pyStripList (stripFenceClose (stripFenceOpen (pyStripList l)))

/-- `llm_client._strip_code_fences`. -/
def strip_code_fences (s : String) : String :=
  ⟨stripCodeFencesList s.toList⟩

/-- Executable check for an occurrence of ``` anywhere in the text. -/
def hasFenceList : List Char → Bool
  | [] => false
  | c :: cs => (fenceChars.isPrefixOf (c :: cs)) || hasFenceList cs

/-- A string contains a markdown fence marker ``` somewhere. -/
def hasFence (s : String) : Bool :=
  hasFenceList s.toList

/-- Lexicographic comparison of ranges, the order `sorted` uses on tuples. -/
def rangeLe (a b : Nat × Nat) : Prop :=
  a.1 < b.1 ∨ (a.1 = b.1 ∧ a.2 ≤ b.2)

instance : DecidableRel rangeLe := fun a b => by
  unfold rangeLe
  exact inferInstance

/-- Python `sorted(ranges)` (tuples compare lexicographically; the sort is
stable and a function of the input multiset only). -/
def sortRanges (l : List (Nat × Nat)) : List (Nat × Nat) :=
  l.insertionSort rangeLe

/-- The accumulation loop of `context._merge_ranges`: `cur` is the last
element of the `merged` list being built; a range starting within 2 lines of
the end of `cur` is absorbed into it, otherwise `cur` is emitted. -/
def mergeAdjAux : List (Nat × Nat) → Nat × Nat → List (Nat × Nat)
  | [], cur => [cur]
  | (s, e) :: rest, (ps, pe) =>
    if s ≤ pe + 2 then mergeAdjAux rest (ps, max pe e)
    else (ps, pe) :: mergeAdjAux rest (s, e)

/-- `context._merge_ranges`: sort, then merge overlapping or nearly adjacent
(within 2 lines) ranges. -/
def merge_ranges (ranges : List (Nat × Nat)) : List (Nat × Nat) :=
  match sortRanges ranges with
  | [] => []
  | r :: rest => mergeAdjAux rest r

/-- One entry of the host's per-file change list: a path and the raw patch
text GitHub returns (`none` models a missing patch, e.g. a binary diff). -/
structure RawFile where
  path : String
  patch : Option String
deriving DecidableEq

/-- `diff_parser.FileDiff`: parsed diff for a single file. -/
structure FileDiff where
  path : String
  patch : String
  added_lines : List (Nat × String)
deriving DecidableEq

/-- `FileDiff.char_count`. -/
def FileDiff.char_count (f : FileDiff) : Nat :=
  f.patch.length

/-- `diff_parser.PRDiff`: aggregated diff information for an entire PR. -/
structure PRDiff where
  files : List FileDiff
  truncated : Bool
deriving DecidableEq

/-- `PRDiff.full_diff_text`. -/
def PRDiff.full_diff_text (d : PRDiff) : String :=
  pyJoin "\n" (d.files.map (fun f => f.patch))

/-- `PRDiff.total_chars`. -/
def PRDiff.total_chars (d : PRDiff) : Nat :=
  (d.files.map FileDiff.char_count).sum

/-- The scanning loop of `diff_parser.fetch_pr_diff`, parameterised over the
ignore predicate (`_should_ignore` with the configured exclude globs) and the
external unidiff added-line extraction (`parse`; on parse failure the code
keeps an empty added-line map, which a caller models by `parse` returning
`[]`). State: the running character total and the truncated flag. -/
def fetch_pr_diff_aux (ignore : String → Bool)
    (parse : String → String → List (Nat × String)) (maxDiffChars : Nat) :
    List RawFile → Nat → Bool → List FileDiff × Bool
  | [], _, trunc => ([], trunc)
  | f :: rest, total, trunc =>
    if ignore f.path then fetch_pr_diff_aux ignore parse maxDiffChars rest total trunc
    else
      match f.patch with
      | none => fetch_pr_diff_aux ignore parse maxDiffChars rest total trunc
      | some p =>
        if p.isEmpty then fetch_pr_diff_aux ignore parse maxDiffChars rest total trunc
        else if maxDiffChars < total + p.length then
          fetch_pr_diff_aux ignore parse maxDiffChars rest total true
        else
          let r := fetch_pr_diff_aux ignore parse maxDiffChars rest (total + p.length) trunc
          (⟨f.path, p, parse f.path p⟩ :: r.1, r.2)

/-- `diff_parser.fetch_pr_diff`. -/
def fetch_pr_diff (ignore : String → Bool)
    (parse : String → String → List (Nat × String)) (maxDiffChars : Nat)
    (inputs : List RawFile) : PRDiff :=
  let r := fetch_pr_diff_aux ignore parse maxDiffChars inputs 0 false
  ⟨r.1, r.2⟩

/-- The fate of one input file in the `fetch_pr_diff` scan. -/
inductive FileDecision where
  | ignored
  | noPatch
  | budgetSkipped
  | included
deriving DecidableEq

/-- The per-file decisions taken by the `fetch_pr_diff` scan, in input
order, starting from running character total `total`. -/
def fetchDecisions (ignore : String → Bool) (maxC : Nat) :
    List RawFile → Nat → List FileDecision
  | [], _ => []
  | f :: rest, total =>
    if ignore f.path then .ignored :: fetchDecisions ignore maxC rest total
    else
      match f.patch with
      | none => .noPatch :: fetchDecisions ignore maxC rest total
      | some p =>
        if p.isEmpty then .noPatch :: fetchDecisions ignore maxC rest total
        else if maxC < total + p.length then
          .budgetSkipped :: fetchDecisions ignore maxC rest total
        else .included :: fetchDecisions ignore maxC rest (total + p.length)

/-- The running character total after the `fetch_pr_diff` scan. -/
def runTotal (ignore : String → Bool) (maxC : Nat) :
    List RawFile → Nat → Nat
  | [], total => total
  | f :: rest, total =>
    if ignore f.path then runTotal ignore maxC rest total
    else
      match f.patch with
      | none => runTotal ignore maxC rest total
      | some p =>
        if p.isEmpty then runTotal ignore maxC rest total
        else if maxC < total + p.length then runTotal ignore maxC rest total
        else runTotal ignore maxC rest (total + p.length)

/-- `models.Mode`: review personality mode. -/
inductive Mode where
  | ROAST
  | PRAISE
  | SECURITY
deriving DecidableEq

/-- `models.Language`: output language. -/
inductive Language where
  | ZH
  | EN
deriving DecidableEq

/-- Field data of `models.InlineReview` before pydantic validation. -/
structure RawInlineReview where
  file_path : String
  line_number : Int
  comment : String
deriving DecidableEq

/-- Field data of `models.ReviewResult` before pydantic validation. -/
structure RawReviewResult where
  summary : String
  score : Int
  reviews : List RawInlineReview
deriving DecidableEq

/-- `models.InlineReview` constraints: `line_number ≥ 1`,
`comment` of minimum length 1. -/
def validInlineReview (r : RawInlineReview) : Bool :=
  decide (1 ≤ r.line_number) && decide (1 ≤ r.comment.length)

/-- `models.ReviewResult` constraints: `summary` of minimum length 1,
`0 ≤ score ≤ 100`, every inline review valid. -/
def validReviewResult (r : RawReviewResult) : Bool :=
  decide (1 ≤ r.summary.length) && decide (0 ≤ r.score) && decide (r.score ≤ 100)
    && r.reviews.all validInlineReview

/-- The response-handling tail of `llm_client.call_llm`: the transport,
JSON-decode and fence-stripping stages are summarised by the already-decoded
argument (`none` models transport failure, an empty response or unparseable
JSON); pydantic validation then either passes the data through unchanged or
aborts (`none`, modelling `sys.exit(1)`). -/
def call_llm (resp : Option RawReviewResult) : Option RawReviewResult :=
  match resp with
  | none => none
  | some r => if validReviewResult r then some r else none

/-- `github_client._MARKER`. -/
def _MARKER : String := "<!-- spicydiff-review -->"

/-- `github_client._score_emoji` with the `_SCORE_EMOJI` table: Python dicts
iterate in insertion order and `score in range(a, b)` means `a ≤ score < b`. -/
def _score_emoji (score : Int) : String :=
  if 0 ≤ score ∧ score < 20 then "🗑️"
  else if 20 ≤ score ∧ score < 40 then "🔥"
  else if 40 ≤ score ∧ score < 60 then "😐"
  else if 60 ≤ score ∧ score < 80 then "👍"
  else if 80 ≤ score ∧ score < 101 then "🚀"
  else ""

/-- `github_client._MODE_LABELS` (all six pairs are present, so the `.get`
fallback to the EN label is never taken). -/
def modeLabel (m : Mode) (l : Language) : String :=
  match m, l with
  | .ROAST, .ZH => "🌶️ 地狱厨房模式 (ROAST)"
  | .ROAST, .EN => "🌶️ Hell's Kitchen Mode (ROAST)"
  | .PRAISE, .ZH => "🌈 夸夸群模式 (PRAISE)"
  | .PRAISE, .EN => "🌈 Praise Mode (PRAISE)"
  | .SECURITY, .ZH => "🔒 安全审计模式 (SECURITY)"
  | .SECURITY, .EN => "🔒 Security Audit Mode (SECURITY)"

/-- `models.FileReviewSummary`. -/
structure FileReviewSummary where
  file_path : String
  score : Int
  summary : String
  comment_count : Nat
deriving DecidableEq

/-- The argument of `github_client._build_summary_body`: either a
`ReviewResult` (then `file_summaries = []`, matching the `getattr` default)
or a `FullReviewResult`. -/
structure ReviewOutcome where
  summary : String
  score : Int
  reviews : List RawInlineReview
  file_summaries : List FileReviewSummary
deriving DecidableEq

/-- The seven parts appended per file summary in `_build_summary_body`. -/
def fileSummaryParts (fs : FileReviewSummary) : List String :=
  ["<details>",
   "<summary><b><code>" ++ fs.file_path ++ "</code></b> — " ++ toString fs.score
     ++ "/100 " ++ _score_emoji fs.score ++ " (" ++ toString fs.comment_count
     ++ " comments)</summary>",
   "",
   fs.summary,
   "",
   "</details>",
   ""]

/-- The per-file breakdown block of `_build_summary_body` (rendered only when
`file_summaries` is non-empty). -/
def fileSummariesBlock (l : List FileReviewSummary) (language : Language) : List String :=
  match l with
  | [] => []
  | _ =>
    (if language = Language.ZH then "\n### 📂 文件审查详情\n"
     else "\n### 📂 Per-file Review Details\n") :: l.flatMap fileSummaryParts

/-- The stats footer of `_build_summary_body` (only when there are inline
reviews). -/
def footerParts (reviews : List RawInlineReview) (language : Language) : List String :=
  if 0 < reviews.length then
    [if language = Language.ZH then
       "\n> 💬 共 " ++ toString reviews.length ++ " 条行级评论（详见 Files Changed 页面）"
     else
       "\n> 💬 " ++ toString reviews.length ++ " inline comment(s) — see the Files Changed tab"]
  else []

/-- `github_client._build_summary_body`. -/
def _build_summary_body (r : ReviewOutcome) (mode : Mode) (language : Language) : String :=
  pyJoin "\n"
    ([_MARKER ++ "\n## SpicyDiff Review " ++ _score_emoji r.score ++ "\n",
      "**Mode**: " ++ modeLabel mode language ++ "  ",
      "**Score**: " ++ toString r.score ++ "/100 " ++ _score_emoji r.score ++ "\n",
      "---\n",
      r.summary ++ "\n"]
     ++ fileSummariesBlock r.file_summaries language
     ++ footerParts r.reviews language)

/-- `s` contains `sub` as a substring. -/
def strContains (s sub : String) : Prop :=
  ∃ a b : String, s = a ++ sub ++ b

/-- The scan loop of `github_client._find_nearest_valid_line`, carrying the
best candidate and its distance. -/
def fnvlAux (target maxD : Int) : List Int → Option Int → Int → Option Int × Int
  | [], best, bestDist => (best, bestDist)
  | l :: rest, best, bestDist =>
    if |l - target| < bestDist then fnvlAux target maxD rest (some l) |l - target|
    else fnvlAux target maxD rest best bestDist

/-- `github_client._find_nearest_valid_line` (the set of valid lines is
modelled as a list in iteration order). -/
def _find_nearest_valid_line (target : Int) (valid_lines : List Int)
    (max_distance : Int) : Option Int :=
  if valid_lines = [] then none
  else
    let r := fnvlAux target max_distance valid_lines none (max_distance + 1)
    if r.2 ≤ max_distance then r.1 else none

/-- One entry of the `comments_payload` list in
`github_client.post_inline_comments`. -/
structure CommentPayload where
  path : String
  line : Int
  body : String
deriving DecidableEq

/-- The inline comment body built by `post_inline_comments`. -/
def inline_body (comment : String) : String :=
  "🌶️ **SpicyDiff**\n\n" ++ comment

/-- The per-review step of the payload loop in `post_inline_comments`: keep
an exact diff line, else snap to the nearest valid line within 5, else drop
the single comment. -/
def processInlineReview (changed : String → List Int) (rev : RawInlineReview) :
    List CommentPayload :=
  let file_lines := changed rev.file_path
  if rev.line_number ∈ file_lines then
    [⟨rev.file_path, rev.line_number, inline_body rev.comment⟩]
  else
    match _find_nearest_valid_line rev.line_number file_lines 5 with
    | some nearest => [⟨rev.file_path, nearest, inline_body rev.comment⟩]
    | none => []

/-- The payload-building loop of `post_inline_comments`. -/
def build_comments_payload (changed : String → List Int)
    (reviews : List RawInlineReview) : List CommentPayload :=
  reviews.flatMap (processInlineReview changed)

/-- `PRDiff.changed_line_map` looked up at one path (the dict entry, `[]` for
a missing key). -/
def PRDiff.changed_line_map (d : PRDiff) (path : String) : List Int :=
  match d.files.find? (fun f => f.path = path) with
  | some f => f.added_lines.map (fun q => (q.1 : Int))
  | none => []

/-- The kind of one LLM call issued by the orchestrator. -/
inductive LlmCallKind where
  | singlePass
  | fileReview (path : String)
  | mergeSummary
deriving DecidableEq

/-- Observable external actions of one `main.run` execution, in order: LLM
calls and GitHub posting calls. -/
inductive RunEvent where
  | llmCall (kind : LlmCallKind)
  | postSummary (body : String)
  | postInline (path : String) (line : Int) (body : String)
deriving DecidableEq

/-- Whether an event is a GitHub posting call. -/
def isPostEvent : RunEvent → Bool
  | .llmCall _ => false
  | .postSummary _ => true
  | .postInline _ _ _ => true

/-- The LLM calls of a trace, in order. -/
def llmCalls (trace : List RunEvent) : List LlmCallKind :=
  trace.filterMap (fun e =>
    match e with
    | .llmCall k => some k
    | _ => none)

/-- The configuration fields of `config.Config` that `main.run` consults
after ingestion. -/
structure RunCfg where
  dry_run : Bool
  mode : Mode
  language : Language

/-- `main.MULTI_FILE_THRESHOLD`. -/
def MULTI_FILE_THRESHOLD : Nat := 3

/-- `main._single_pass_review`: one LLM call with the whole-PR prompt. The
LLM endpoint is an oracle indexed by call sequence number; its response goes
through the `call_llm` validation pipeline. -/
def _single_pass_review (oracle : Nat → Option RawReviewResult) :
    List RunEvent × Option RawReviewResult :=
  ([.llmCall .singlePass], call_llm (oracle 0))

/-- The per-file loop of `main._multi_file_review`: one LLM call per file in
file order, accumulating inline reviews and per-file summaries; a failed call
aborts (the Python code exits inside `call_llm`). Context fetching and prompt
building for each file involve no LLM or posting calls and do not affect the
event trace. -/
def _multi_file_aux (oracle : Nat → Option RawReviewResult) :
    List FileDiff → Nat → List RunEvent → List RawInlineReview →
    List FileReviewSummary →
    List RunEvent × Option (List RawInlineReview × List FileReviewSummary) × Nat
  | [], k, evs, revs, sums => (evs, some (revs, sums), k)
  | fd :: rest, k, evs, revs, sums =>
    match call_llm (oracle k) with
    | none => (evs ++ [.llmCall (.fileReview fd.path)], none, k)
    | some r =>
      _multi_file_aux oracle rest (k + 1) (evs ++ [.llmCall (.fileReview fd.path)])
        (revs ++ r.reviews) (sums ++ [⟨fd.path, r.score, r.summary, r.reviews.length⟩])

/-- `main._multi_file_review`: per-file calls, then one merge call whose
summary and score are taken verbatim while the inline reviews are the
concatenation of the per-file reviews. -/
def _multi_file_review (oracle : Nat → Option RawReviewResult)
    (files : List FileDiff) : List RunEvent × Option ReviewOutcome :=
  match _multi_file_aux oracle files 0 [] [] [] with
  | (evs, none, _) => (evs, none)
  | (evs, some (revs, sums), k) =>
    match call_llm (oracle k) with
    | none => (evs ++ [.llmCall .mergeSummary], none)
    | some m => (evs ++ [.llmCall .mergeSummary], some ⟨m.summary, m.score, revs, sums⟩)

/-- Step 4 of `main.run`: strategy selection by file count; a single-pass
`ReviewResult` feeds posting with the `getattr` default `file_summaries = []`. -/
def selectStrategy (oracle : Nat → Option RawReviewResult) (files : List FileDiff) :
    List RunEvent × Option ReviewOutcome :=
  if files.length ≤ MULTI_FILE_THRESHOLD then
    match _single_pass_review oracle with
    | (evs, none) => (evs, none)
    | (evs, some r) =>
      (evs, some (⟨r.summary, r.score, r.reviews, []⟩ : ReviewOutcome))
  else _multi_file_review oracle files

/-- Step 5 of `main.run`: posting. `run` posts the summary comment only
(`post_inline_comments` is imported but never called); `dry_run` suppresses
posting; an aborted review (`none`) posts nothing. -/
def postPhase (cfg : RunCfg) (sr : List RunEvent × Option ReviewOutcome) :
    List RunEvent × Option ReviewOutcome :=
  match sr with
  | (evs, none) => (evs, none)
  | (evs, some outcome) =>
    if cfg.dry_run then (evs, some outcome)
    else
      (evs ++ [.postSummary (_build_summary_body outcome cfg.mode cfg.language)],
       some outcome)

/-- The post-ingestion part of `main.run`: early exit on an empty diff,
strategy selection, then posting. `none` as second component models an abort
(`sys.exit`) inside `call_llm` (or the empty-diff early return, which posts
nothing). -/
def runPipeline (cfg : RunCfg) (oracle : Nat → Option RawReviewResult)
    (pr_diff : PRDiff) : List RunEvent × Option ReviewOutcome :=
  if pr_diff.files = [] then ([], none)
  else postPhase cfg (selectStrategy oracle pr_diff.files)

/-- Configuration of the C1 scenario: posting enabled. -/
def c1cfg : RunCfg := ⟨false, Mode.ROAST, Language.EN⟩

/-- The C1 scenario PR diff: one file `a.py` with two added lines. -/
def c1diff : PRDiff :=
  ⟨[⟨"a.py", "@@ -0,0 +1,2 @@\n+line one\n+line two",
     [(1, "line one\n"), (2, "line two\n")]⟩], false⟩

/-- The C1 scenario LLM response. -/
def c1resp : RawReviewResult := ⟨"Fine", 70, [⟨"a.py", 2, "ok"⟩]⟩

/-- The C1 scenario LLM oracle. -/
def c1oracle : Nat → Option RawReviewResult := fun _ => some c1resp

/-- Split a character list at every newline (`"a\nb".split("\n")`
semantics: the result is always non-empty, empty segments are kept). -/
def splitAtNewlines : List Char → List (List Char)
  | [] => [[]]
  | c :: cs =>
    match splitAtNewlines cs with
    | [] => [[]]
    | h :: t => if c = '\n' then [] :: h :: t else (c :: h) :: t

/-- Python `str.splitlines()` for newline-separated text (a trailing newline
produces no extra empty line; the empty string produces no lines). -/
def pySplitlines (s : String) : List String :=
  if s = "" then []
  else
    let parts := (splitAtNewlines s.toList).map (fun l => (⟨l⟩ : String))
    if s.toList.getLast? = some '\n' then parts.dropLast else parts

/-- `context._get_indent`: number of leading whitespace characters. -/
def _get_indent (line : String) : Nat :=
  line.length - (pyLstrip line).length

/-- Python `not line.strip()`. -/
def isBlank (line : String) : Bool :=
  (pyStripList line.toList).isEmpty

/-- A regex `\w` word character (ASCII). -/
def isWordChar (c : Char) : Bool :=
  c.isAlpha || c.isDigit || c = '_'

/-- The keyword then at least one word character, as in
`(keyword )\w+` after the leading whitespace. -/
def kwHead (l : List Char) (kw : String) : Bool :=
  kw.toList.isPrefixOf l && ((l.drop kw.toList.length).head?.elim false isWordChar)

/-- The `(pub )?(fn |impl |struct |enum |trait )\w+` core of the Rust block
pattern. -/
def rustCore (l : List Char) : Bool :=
  kwHead l "fn " || kwHead l "impl " || kwHead l "struct " || kwHead l "enum "
    || kwHead l "trait "

/-- `context._BLOCK_PATTERNS` matching (`re.match`, so anchored after leading
whitespace `\s*`; no alternative begins with whitespace, so skipping the
maximal whitespace run is equivalent). -/
def matchesBlockPattern (line : String) : Bool :=
  let rest := line.toList.dropWhile isPySpace
  (kwHead rest "def " || kwHead rest "async def " || kwHead rest "class ")
  || (kwHead rest "function " || kwHead rest "const " || kwHead rest "let "
      || kwHead rest "var " || kwHead rest "class " || kwHead rest "export "
      || kwHead rest "async function ")
  || ("func".toList.isPrefixOf rest
      && ((rest.drop 4).head?.elim false (fun c => isPySpace c || c = '(')))
  || (kwHead rest "public " || kwHead rest "private " || kwHead rest "protected "
      || kwHead rest "internal " || kwHead rest "static " || kwHead rest "override "
      || kwHead rest "fun " || kwHead rest "void " || kwHead rest "int "
      || kwHead rest "string " || kwHead rest "boolean ")
  || (rustCore rest || ("pub ".toList.isPrefixOf rest && rustCore (rest.drop 4)))

/-- The backward scan of `context._find_enclosing_block`: examine indices
`i-1, i-2, …, 0`; skip blank lines; a block-pattern line stops the scan
immediately and becomes the block start; a line at shallower indentation than
the target becomes the current candidate and the scan continues. -/
def backScanAux (lines : List String) (targetIndent : Nat) : Nat → Nat → Nat
  | 0, bs => bs
  | i + 1, bs =>
    let line := lines.getD i ""
    if isBlank line then backScanAux lines targetIndent i bs
    else if matchesBlockPattern line then i
    else if _get_indent line < targetIndent then backScanAux lines targetIndent i i
    else backScanAux lines targetIndent i bs

/-- The forward scan of `context._find_enclosing_block`: from `target_idx+1`
up to the end of the file (`fuel` counts the remaining indices), blank lines
extend the block, a sibling block start (indentation at or below the block
start's, and a block pattern) terminates, anything else extends. -/
def fwdScanAux (lines : List String) (startIndent : Nat) :
    Nat → Nat → Nat → Nat
  | 0, _, be => be
  | fuel + 1, i, be =>
    let line := lines.getD i ""
    if isBlank line then fwdScanAux lines startIndent fuel (i + 1) i
    else if decide (_get_indent line ≤ startIndent) && matchesBlockPattern line then be
    else fwdScanAux lines startIndent fuel (i + 1) i

/-- `context._find_enclosing_block` (0-based target index), including the
50-line clamp re-centred on the target. -/
def _find_enclosing_block (lines : List String) (target_idx : Nat) : Nat × Nat :=
  let targetIndent :=
    if target_idx < lines.length then _get_indent (lines.getD target_idx "") else 0
  let block_start := backScanAux lines targetIndent target_idx target_idx
  let block_end :=
    if block_start < lines.length then
      fwdScanAux lines (_get_indent (lines.getD block_start ""))
        (lines.length - (target_idx + 1)) (target_idx + 1) target_idx
    else target_idx
  if 50 < block_end - block_start then
    (max block_start (target_idx - 25), min block_end (target_idx + 25))
  else (block_start, block_end)

/-- Right-align a decimal string in a field of width 4 (`f"{n:4d}"`). -/
def padLeft4 (s : String) : String :=
  if s.length < 4 then String.mk (List.replicate (4 - s.length) ' ') ++ s else s

/-- One displayed context line `f"{i + 1:4d} | {lines[i]}"`. -/
def contextLine (i : Nat) (line : String) : String :=
  padLeft4 (toString (i + 1)) ++ " | " ++ line

/-- The truncation marker line of `extract_surrounding_context`. -/
def truncMarker : String := "     | ... (truncated)"

/-- The inner loop of the context builder over one merged range: append
numbered lines while the budget allows; on overflow append the marker and
stop (third component: truncated). -/
def buildRangeAux (lines : List String) (max_chars : Nat) :
    List Nat → List String → Nat → List String × Nat × Bool
  | [], parts, total => (parts, total, false)
  | i :: rest, parts, total =>
    let line_text := contextLine i (lines.getD i "")
    if max_chars < total + line_text.length then (parts ++ [truncMarker], total, true)
    else buildRangeAux lines max_chars rest (parts ++ [line_text]) (total + line_text.length + 1)

/-- The outer loop of the context builder over the merged ranges: each range
contributes its lines (truncation aborts everything) and a blank separator. -/
def buildParts (lines : List String) (max_chars : Nat) :
    List (Nat × Nat) → List String → Nat → List String × Bool
  | [], parts, _ => (parts, false)
  | (s, e) :: rest, parts, total =>
    match buildRangeAux lines max_chars
        (List.range' s (min (e + 1) lines.length - s)) parts total with
    | (parts', _, true) => (parts', true)
    | (parts', total', false) => buildParts lines max_chars rest (parts' ++ [""]) total'

/-- Python `sorted(set(changed_lines))`. -/
def sortedDedup (l : List Nat) : List Nat :=
  (l.dedup).insertionSort (· ≤ ·)

/-- The enclosing-block ranges collected by `extract_surrounding_context`:
one per in-bounds changed line (1-based), in sorted order. -/
def contextRanges (lines : List String) (changed_lines : List Nat) : List (Nat × Nat) :=
  (sortedDedup changed_lines).filterMap (fun line_no =>
    if line_no < 1 ∨ lines.length < line_no then none
    else some (_find_enclosing_block lines (line_no - 1)))

/-- `context.extract_surrounding_context`. -/
def extract_surrounding_context (full_source : String) (changed_lines : List Nat)
    (max_chars : Nat) : Option String :=
  if changed_lines = [] ∨ full_source = "" then none
  else
    let lines := pySplitlines full_source
    if lines = [] then none
    else
      let context_ranges := contextRanges lines changed_lines
      if context_ranges = [] then none
      else
        match buildParts lines max_chars (merge_ranges context_ranges) [] 0 with
        | (parts, true) => some (pyJoin "\n" parts)
        | (parts, false) =>
          let result := pyStrip (pyJoin "\n" parts)
          if result = "" then none else some result

/-- The nearest block-pattern line strictly below index `t` (the scan stop). -/
def lastPatternBelow (lines : List String) (t : Nat) : Option Nat :=
  ((List.range t).reverse).find? (fun j => matchesBlockPattern (lines.getD j ""))

/-- The earliest non-blank line strictly below index `t` at indentation
shallower than the target's. -/
def firstShallowBelow (lines : List String) (targetIndent t : Nat) : Option Nat :=
  (List.range t).find? (fun j =>
    !(isBlank (lines.getD j ""))
      && decide (_get_indent (lines.getD j "") < targetIndent))

/-- The `if p = truncMarker then 0 else p.length` weight used to bound the
numbered context lines of an output. -/
def partWeight (p : String) : Nat :=
  if p = truncMarker then 0 else p.length

/-- Total length of the non-marker lines of a parts list. -/
def partsWeight (ps : List String) : Nat :=
  (ps.map partWeight).sum

-- ===================== THEOREMS =====================

instance : IsAntisymm (Nat × Nat) rangeLe := by
  constructor
  intro a b hab hba
  unfold rangeLe at hab hba
  have h1 : a.1 = b.1 := by omega
  have h2 : a.2 = b.2 := by omega
  exact Prod.ext h1 h2

instance : IsTrans (Nat × Nat) rangeLe := by
  constructor
  intro a b c hab hbc
  unfold rangeLe at hab hbc ⊢
  omega

instance : IsTotal (Nat × Nat) rangeLe := by
  constructor
  intro a b
  unfold rangeLe
  omega

theorem sortRanges_sorted (l : List (Nat × Nat)) :
    (sortRanges l).Pairwise rangeLe :=
  List.sorted_insertionSort rangeLe l

theorem sortRanges_perm (l : List (Nat × Nat)) : (sortRanges l).Perm l :=
  List.perm_insertionSort rangeLe l

/-- Python `sorted` is a function of the multiset of inputs only. -/
theorem sortRanges_congr {l₁ l₂ : List (Nat × Nat)} (h : l₁.Perm l₂) :
    sortRanges l₁ = sortRanges l₂ := by
  refine List.eq_of_perm_of_sorted ?_ (sortRanges_sorted l₁) (sortRanges_sorted l₂)
  exact ((sortRanges_perm l₁).trans h).trans (sortRanges_perm l₂).symm

/-- The merge loop emits ranges with nondecreasing starts when fed a
start-sorted list whose elements all start at or after `cur`. -/
theorem mergeAdjAux_sorted (rest : List (Nat × Nat)) (cur : Nat × Nat)
    (hrest : rest.Pairwise (fun x y => x.1 ≤ y.1))
    (hcur : ∀ x ∈ rest, cur.1 ≤ x.1) :
    (mergeAdjAux rest cur).Pairwise (fun x y => x.1 ≤ y.1)
    ∧ ∀ z ∈ mergeAdjAux rest cur, cur.1 ≤ z.1 := by
  induction rest generalizing cur with
  | nil =>
    constructor
    · simp [mergeAdjAux]
    · intro z hz
      simp only [mergeAdjAux, List.mem_singleton] at hz
      rw [hz]
  | cons hd tl ih =>
    obtain ⟨s, e⟩ := hd
    obtain ⟨ps, pe⟩ := cur
    rw [List.pairwise_cons] at hrest
    simp only [mergeAdjAux]
    by_cases hle : s ≤ pe + 2
    · rw [if_pos hle]
      have := ih (ps, max pe e) hrest.2 (fun x hx => hcur x (by simp [hx]))
      exact this
    · rw [if_neg hle]
      have hcs : (s, e).1 ≤ s := le_refl s
      have := ih (s, e) hrest.2 (fun x hx => hrest.1 x hx)
      constructor
      · rw [List.pairwise_cons]
        refine ⟨fun z hz => ?_, this.1⟩
        have h1 : ps ≤ s := hcur (s, e) (by simp)
        exact le_trans h1 (this.2 z hz)
      · intro z hz
        rcases List.mem_cons.mp hz with h | h
        · rw [h]
        · have h1 : ps ≤ s := hcur (s, e) (by simp)
          exact le_trans h1 (this.2 z h)

theorem pyStripList_nil : pyStripList [] = [] := rfl

theorem dropWhile_length_le (p : Char → Bool) (l : List Char) :
    (l.dropWhile p).length ≤ l.length := by
  induction l with
  | nil => simp
  | cons c cs ih =>
    rw [List.dropWhile_cons]
    by_cases hp : p c = true
    · simp only [hp, if_true, List.length_cons]; omega
    · simp [hp]

/-- Stripping is the identity exactly when neither end holds whitespace;
here: if `pyStripList l = l` and `l = c :: _` then `c` is not whitespace. -/
theorem pyStripList_eq_self_head {c : Char} {cs : List Char}
    (h : pyStripList (c :: cs) = c :: cs) : isPySpace c = false := by
  by_contra hc
  have hc' : isPySpace c = true := by
    cases h' : isPySpace c with
    | false => exact absurd h' hc
    | true => rfl
  have hlen : (pyStripList (c :: cs)).length ≤ cs.length := by
    have h1 : (c :: cs).dropWhile isPySpace = cs.dropWhile isPySpace := by
      simp [List.dropWhile_cons, hc']
    have h2 : ((cs.dropWhile isPySpace).reverse.dropWhile isPySpace).length
        ≤ (cs.dropWhile isPySpace).reverse.length := dropWhile_length_le _ _
    have h3 : (cs.dropWhile isPySpace).length ≤ cs.length := dropWhile_length_le _ _
    simp only [pyStripList, h1, List.length_reverse] at *
    omega
  rw [h] at hlen
  simp at hlen

/-- Apply `pyStripList` to an already-stripped list with one trailing
newline: the newline goes away. -/
theorem pyStripList_append_newline {b : List Char}
    (hb : pyStripList b = b) : pyStripList (b ++ ['\n']) = b := by
  rcases b with _ | ⟨c, cs⟩
  · rfl
  · have hc : isPySpace c = false := pyStripList_eq_self_head hb
    unfold pyStripList at hb ⊢
    rw [List.dropWhile_cons, hc] at hb
    simp only [Bool.false_eq_true, if_false] at hb
    have hrevdrop : (c :: cs).reverse.dropWhile isPySpace = (c :: cs).reverse := by
      have := congrArg List.reverse hb
      simpa using this
    rw [List.cons_append, List.dropWhile_cons, hc]
    simp only [Bool.false_eq_true, if_false]
    have hrev : (c :: (cs ++ ['\n'])).reverse = '\n' :: (c :: cs).reverse := by simp
    rw [hrev, List.dropWhile_cons]
    have hnl : isPySpace '\n' = true := rfl
    rw [hnl]
    simp only [if_true, hrevdrop, List.reverse_reverse]

/-- The opening-fence removal finds the newline that terminates the
`⟨backticks⟩json` label: for lists of the shape `noNl ++ '\n' :: rest` with no
newline in `noNl`, the remainder is `rest`. -/
theorem afterFirstNewline_label (noNl rest : List Char)
    (h : ∀ c ∈ noNl, c ≠ '\n') :
    afterFirstNewline (noNl ++ '\n' :: rest) = some rest := by
  induction noNl with
  | nil => simp [afterFirstNewline]
  | cons c cs ih =>
    have hc : c ≠ '\n' := h c (by simp)
    simp only [List.cons_append, afterFirstNewline, if_neg hc]
    exact ih (fun x hx => h x (by simp [hx]))

theorem reverse_take_three_append (l : List Char) :
    ((l ++ '\n' :: fenceChars).reverse.take 3) = fenceChars := by
  simp [fenceChars]

/-- A list that starts and ends with a backtick is untouched by `strip`. -/
theorem pyStripList_backtick_ends (mid : List Char) :
    pyStripList ('`' :: mid ++ ['`']) = '`' :: mid ++ ['`'] := by
  have h1 : isPySpace '`' = false := rfl
  unfold pyStripList
  rw [List.cons_append, List.dropWhile_cons, h1]
  simp only [Bool.false_eq_true, if_false]
  have h2 : ('`' :: (mid ++ ['`'])).reverse = '`' :: (mid.reverse ++ ['`']) := by simp
  rw [h2, List.dropWhile_cons, h1]
  simp only [Bool.false_eq_true, if_false]
  have h3 : ('`' :: (mid.reverse ++ ['`'])).reverse = '`' :: (mid ++ ['`']) := by simp
  rw [h3]

/-- Fence stripping on a fenced block `⟨fence⟩⟨label⟩\n⟨body⟩\n⟨fence⟩` with a
newline-free label and an already-stripped body returns exactly the body. -/
theorem stripCodeFencesList_fenced (label b : List Char)
    (hlabel : ∀ c ∈ label, c ≠ '\n') (hb : pyStripList b = b) :
    stripCodeFencesList (fenceChars ++ label ++ '\n' :: b ++ '\n' :: fenceChars) = b := by
  have hshape : fenceChars ++ label ++ '\n' :: b ++ '\n' :: fenceChars
      = '`' :: (['`', '`'] ++ label ++ '\n' :: b ++ '\n' :: ['`', '`']) ++ ['`'] := by
    simp [fenceChars]
  have hstrip : pyStripList (fenceChars ++ label ++ '\n' :: b ++ '\n' :: fenceChars)
      = fenceChars ++ label ++ '\n' :: b ++ '\n' :: fenceChars := by
    rw [hshape]; exact pyStripList_backtick_ends _
  unfold stripCodeFencesList
  rw [hstrip]
  have htake : (fenceChars ++ label ++ '\n' :: b ++ '\n' :: fenceChars).take 3
      = fenceChars := by
    simp [fenceChars]
  have hnl : ∀ c ∈ fenceChars ++ label, c ≠ '\n' := by
    intro c hc
    rcases List.mem_append.mp hc with h | h
    · fin_cases h <;> decide
    · exact hlabel c h
  have hopen : stripFenceOpen (fenceChars ++ label ++ '\n' :: b ++ '\n' :: fenceChars)
      = b ++ '\n' :: fenceChars := by
    unfold stripFenceOpen
    rw [if_pos htake]
    have hshape2 : fenceChars ++ label ++ '\n' :: b ++ '\n' :: fenceChars
        = (fenceChars ++ label) ++ '\n' :: (b ++ '\n' :: fenceChars) := by
      simp [fenceChars]
    rw [hshape2, afterFirstNewline_label _ _ hnl]
  rw [hopen]
  have hclose : stripFenceClose (b ++ '\n' :: fenceChars) = b ++ ['\n'] := by
    unfold stripFenceClose
    rw [if_pos (reverse_take_three_append b)]
    simp [fenceChars]
  rw [hclose]
  exact pyStripList_append_newline hb

/-- C6 counterexample: the text `" a"` contains no fence marker, yet
`_strip_code_fences " a" = "a" ≠ " a"` — stripping is not the identity on
fence-free text because the function also trims surrounding whitespace. -/
theorem c6_counterexample :
    hasFence " a" = false ∧ strip_code_fences " a" ≠ " a" := by
  constructor
  · rfl
  · intro h
    have : (strip_code_fences " a").toList = (" a" : String).toList := by rw [h]
    simp [strip_code_fences, String.toList] at this
    revert this
    decide

/-- C6 (amended): stripping markdown code fences from `⟨fence⟩json\n{...}\n⟨fence⟩`
yields exactly the enclosed text for both labeled and unlabeled fences whenever
the enclosed text carries no surrounding whitespace; stripping is the identity
on any whitespace-trimmed text that neither starts nor ends with a fence
marker (on general fence-free text it returns the whitespace-trimmed text,
not the input itself). -/
theorem c6_strip_code_fences_amended :
    (∀ body : String, pyStrip body = body →
        strip_code_fences ("```json\n" ++ body ++ "\n```") = body
      ∧ strip_code_fences ("```\n" ++ body ++ "\n```") = body)
  ∧ (∀ s : String, pyStrip s = s → s.toList.take 3 ≠ fenceChars →
      s.toList.reverse.take 3 ≠ fenceChars → strip_code_fences s = s) := by
  constructor
  · intro body hb
    have hb' : pyStripList body.toList = body.toList := congrArg String.toList hb
    constructor
    · show (⟨stripCodeFencesList ("```json\n" ++ body ++ "\n```").toList⟩ : String) = body
      have h1 : ("```json\n" ++ body ++ "\n```").toList
          = fenceChars ++ ['j', 's', 'o', 'n'] ++ '\n' :: body.toList ++ '\n' :: fenceChars := by
        have e : ("```json\n" ++ body ++ "\n```").toList
            = ("```json\n".toList ++ body.toList) ++ "\n```".toList := rfl
        rw [e]
        simp [fenceChars]
      rw [h1, stripCodeFencesList_fenced _ _ (by decide) hb']
      rfl
    · show (⟨stripCodeFencesList ("```\n" ++ body ++ "\n```").toList⟩ : String) = body
      have h1 : ("```\n" ++ body ++ "\n```").toList
          = fenceChars ++ [] ++ '\n' :: body.toList ++ '\n' :: fenceChars := by
        have e : ("```\n" ++ body ++ "\n```").toList
            = ("```\n".toList ++ body.toList) ++ "\n```".toList := rfl
        rw [e]
        simp [fenceChars]
      rw [h1, stripCodeFencesList_fenced _ _ (by decide) hb']
      rfl
  · intro s hs h1 h2
    have hs' : pyStripList s.toList = s.toList := congrArg String.toList hs
    show (⟨stripCodeFencesList s.toList⟩ : String) = s
    unfold stripCodeFencesList stripFenceOpen stripFenceClose
    rw [hs', if_neg h1, if_neg h2, hs']
    rfl

/-- Witness for the amended C6 theorem at concrete inputs. -/
theorem c6_strip_code_fences_amended_witness :
    strip_code_fences "```json\n\x7b\"a\": 1\x7d\n```" = "\x7b\"a\": 1\x7d"
    ∧ strip_code_fences "plain text" = "plain text" := by
  constructor
  · exact ((c6_strip_code_fences_amended.1 "\x7b\"a\": 1\x7d" (by decide)).1)
  · exact c6_strip_code_fences_amended.2 "plain text" (by decide) (by decide) (by decide)

theorem sortRanges_pair (x y : Nat × Nat) (h : rangeLe x y) :
    sortRanges [x, y] = [x, y] := by
  refine List.eq_of_perm_of_sorted (sortRanges_perm [x, y]) (sortRanges_sorted [x, y]) ?_
  simp [h]

/-- C7: range merging collapses two ranges separated by at most 2 lines into
one, keeps ranges farther apart separate, produces the same output on every
permutation of the input, and emits ranges sorted by start position. -/
theorem c7_merge_ranges :
    (∀ l₁ l₂ : List (Nat × Nat), l₁.Perm l₂ → merge_ranges l₁ = merge_ranges l₂)
  ∧ (∀ a b c d : Nat, a ≤ b → b < c →
      (c ≤ b + 2 → merge_ranges [(a, b), (c, d)] = [(a, max b d)])
      ∧ (b + 2 < c → merge_ranges [(a, b), (c, d)] = [(a, b), (c, d)]))
  ∧ (∀ l : List (Nat × Nat), (merge_ranges l).Pairwise (fun x y => x.1 ≤ y.1)) := by
  refine ⟨fun l₁ l₂ h => ?_, fun a b c d hab hbc => ?_, fun l => ?_⟩
  · unfold merge_ranges
    rw [sortRanges_congr h]
  · have hlex : rangeLe (a, b) (c, d) := by
      unfold rangeLe
      left
      omega
    constructor
    · intro hclose
      unfold merge_ranges
      rw [sortRanges_pair _ _ hlex]
      simp [mergeAdjAux, hclose]
    · intro hfar
      unfold merge_ranges
      rw [sortRanges_pair _ _ hlex]
      have : ¬(c ≤ b + 2) := by omega
      simp [mergeAdjAux, this]
  · unfold merge_ranges
    rcases hs : sortRanges l with _ | ⟨r, rest⟩
    · simp
    · have hsorted := sortRanges_sorted l
      rw [hs, List.pairwise_cons] at hsorted
      have hrest : rest.Pairwise (fun x y : Nat × Nat => x.1 ≤ y.1) := by
        refine hsorted.2.imp ?_
        intro x y hxy
        unfold rangeLe at hxy
        omega
      have hcur : ∀ x ∈ rest, r.1 ≤ x.1 := by
        intro x hx
        have := hsorted.1 x hx
        unfold rangeLe at this
        omega
      exact (mergeAdjAux_sorted rest r hrest hcur).1

/-- Witness for C7 at concrete inputs: merging is permutation-invariant, a
gap of 2 merges, a gap of 3 does not. -/
theorem c7_merge_ranges_witness :
    merge_ranges [(10, 15), (0, 5)] = merge_ranges [(0, 5), (10, 15)]
    ∧ merge_ranges [(0, 5), (7, 9)] = [(0, 9)]
    ∧ merge_ranges [(0, 5), (8, 9)] = [(0, 5), (8, 9)] := by
  refine ⟨c7_merge_ranges.1 _ _ (by decide), ?_, ?_⟩
  · have h := (c7_merge_ranges.2.1 0 5 7 9 (by decide) (by decide)).1 (by decide)
    simpa using h
  · exact (c7_merge_ranges.2.1 0 5 8 9 (by decide) (by decide)).2 (by decide)

theorem fetch_pr_diff_aux_truncated (ignore : String → Bool)
    (parse : String → String → List (Nat × String)) (maxC : Nat)
    (inputs : List RawFile) : ∀ (total : Nat) (trunc : Bool),
    ((fetch_pr_diff_aux ignore parse maxC inputs total trunc).2 = true
      ↔ trunc = true ∨ FileDecision.budgetSkipped ∈ fetchDecisions ignore maxC inputs total) := by
  induction inputs with
  | nil => simp [fetch_pr_diff_aux, fetchDecisions]
  | cons f rest ih =>
    intro total trunc
    by_cases hig : ignore f.path
    · simp [fetch_pr_diff_aux, fetchDecisions, hig, ih]
    · rcases hp : f.patch with _ | p
      · simp [fetch_pr_diff_aux, fetchDecisions, hig, hp, ih]
      · by_cases hemp : p.isEmpty
        · simp [fetch_pr_diff_aux, fetchDecisions, hig, hp, hemp, ih]
        · by_cases hbud : maxC < total + p.length
          · simp [fetch_pr_diff_aux, fetchDecisions, hig, hp, hemp, hbud, ih]
          · simp [fetch_pr_diff_aux, fetchDecisions, hig, hp, hemp, hbud, ih]

theorem fetch_pr_diff_aux_total (ignore : String → Bool)
    (parse : String → String → List (Nat × String)) (maxC : Nat)
    (inputs : List RawFile) : ∀ (total : Nat) (trunc : Bool),
    runTotal ignore maxC inputs total
      = total + (((fetch_pr_diff_aux ignore parse maxC inputs total trunc).1.map
          FileDiff.char_count).sum) := by
  induction inputs with
  | nil => simp [fetch_pr_diff_aux, runTotal]
  | cons f rest ih =>
    intro total trunc
    by_cases hig : ignore f.path
    · simp only [fetch_pr_diff_aux, runTotal, hig, if_true]
      exact ih total trunc
    · rcases hp : f.patch with _ | p
      · simp only [fetch_pr_diff_aux, runTotal, hig, hp, Bool.false_eq_true, if_false]
        exact ih total trunc
      · by_cases hemp : p.isEmpty
        · simp only [fetch_pr_diff_aux, runTotal, hig, hp, hemp, Bool.false_eq_true,
            if_false, if_true]
          exact ih total trunc
        · by_cases hbud : maxC < total + p.length
          · simp only [fetch_pr_diff_aux, runTotal, hig, hp, hemp, hbud,
              Bool.false_eq_true, if_false, if_true]
            exact ih total true
          · simp only [fetch_pr_diff_aux, runTotal, hig, hp, hemp, hbud,
              Bool.false_eq_true, if_false, List.map_cons, List.sum_cons,
              FileDiff.char_count]
            rw [ih (total + p.length) trunc]
            omega

theorem fetchDecisions_append (ignore : String → Bool) (maxC : Nat)
    (pre post : List RawFile) : ∀ (total : Nat),
    fetchDecisions ignore maxC (pre ++ post) total
      = fetchDecisions ignore maxC pre total
        ++ fetchDecisions ignore maxC post (runTotal ignore maxC pre total) := by
  induction pre with
  | nil => simp [fetchDecisions, runTotal]
  | cons f rest ih =>
    intro total
    by_cases hig : ignore f.path
    · simp [fetchDecisions, runTotal, hig, ih]
    · rcases hp : f.patch with _ | p
      · simp [fetchDecisions, runTotal, hig, hp, ih]
      · by_cases hemp : p.isEmpty
        · simp [fetchDecisions, runTotal, hig, hp, hemp, ih]
        · by_cases hbud : maxC < total + p.length
          · simp [fetchDecisions, runTotal, hig, hp, hemp, hbud, ih]
          · simp [fetchDecisions, runTotal, hig, hp, hemp, hbud, ih]

theorem fetchDecisions_length (ignore : String → Bool) (maxC : Nat)
    (inputs : List RawFile) : ∀ (total : Nat),
    (fetchDecisions ignore maxC inputs total).length = inputs.length := by
  induction inputs with
  | nil => simp [fetchDecisions]
  | cons f rest ih =>
    intro total
    by_cases hig : ignore f.path
    · simp [fetchDecisions, hig, ih]
    · rcases hp : f.patch with _ | p
      · simp [fetchDecisions, hig, hp, ih]
      · by_cases hemp : p.isEmpty
        · simp [fetchDecisions, hig, hp, hemp, ih]
        · by_cases hbud : maxC < total + p.length
          · simp [fetchDecisions, hig, hp, hemp, hbud, ih]
          · simp [fetchDecisions, hig, hp, hemp, hbud, ih]

/-- C2: for every `PRDiff` produced by `fetch_pr_diff`, `total_chars` is the
sum of the included files' patch lengths; `truncated` is true iff some file
was rejected purely for budget reasons; a non-ignored file with a non-empty
patch is budget-skipped exactly when its patch length plus the running total
of the already-included patches (the `total_chars` of the diff built from the
preceding inputs) exceeds `max_diff_chars`; and a later smaller file is still
added after a larger file was skipped. -/
theorem c2_fetch_pr_diff (ignore : String → Bool)
    (parse : String → String → List (Nat × String)) (maxC : Nat)
    (inputs : List RawFile) :
    ((fetch_pr_diff ignore parse maxC inputs).total_chars
      = ((fetch_pr_diff ignore parse maxC inputs).files.map (fun f => f.patch.length)).sum)
  ∧ ((fetch_pr_diff ignore parse maxC inputs).truncated = true
      ↔ FileDecision.budgetSkipped ∈ fetchDecisions ignore maxC inputs 0)
  ∧ (∀ (pre : List RawFile) (f : RawFile) (post : List RawFile) (p : String),
      inputs = pre ++ f :: post → ignore f.path = false → f.patch = some p →
      p.isEmpty = false →
      ((fetchDecisions ignore maxC inputs 0)[pre.length]? = some .budgetSkipped
        ↔ maxC < (fetch_pr_diff ignore parse maxC pre).total_chars + p.length))
  ∧ fetch_pr_diff (fun _ => false) (fun _ _ => []) 5
      [⟨"a", some "0123456789"⟩, ⟨"b", some "123"⟩]
      = ⟨[⟨"b", "123", []⟩], true⟩ := by
  refine ⟨rfl, ?_, ?_, rfl⟩
  · have h := fetch_pr_diff_aux_truncated ignore parse maxC inputs 0 false
    simpa [fetch_pr_diff, PRDiff.truncated] using h
  · intro pre f post p hsplit hig hp hemp
    subst hsplit
    rw [fetchDecisions_append]
    rw [List.getElem?_append_right (by rw [fetchDecisions_length])]
    rw [fetchDecisions_length]
    simp only [Nat.sub_self]
    have hR : runTotal ignore maxC pre 0
        = (fetch_pr_diff ignore parse maxC pre).total_chars := by
      have := fetch_pr_diff_aux_total ignore parse maxC pre 0 false
      simpa [fetch_pr_diff, PRDiff.total_chars] using this
    rw [hR]
    set R := (fetch_pr_diff ignore parse maxC pre).total_chars with hRdef
    have hig' : ignore f.path = false := hig
    rw [fetchDecisions]
    simp only [hig', Bool.false_eq_true, if_false, hp, hemp]
    by_cases hbud : maxC < R + p.length
    · simp [hbud]
    · simp [hbud]

/-- Witness for C2: with a 5-character budget, a 10-character first file is
budget-skipped while the 3-character second file is still included. -/
theorem c2_fetch_pr_diff_witness :
    (fetchDecisions (fun _ => false) 5
        [⟨"a", some "0123456789"⟩, ⟨"b", some "123"⟩] 0)[0]?
      = some FileDecision.budgetSkipped := by
  have h := (c2_fetch_pr_diff (fun _ => false) (fun _ _ => []) 5
      [⟨"a", some "0123456789"⟩, ⟨"b", some "123"⟩]).2.2.1
      [] ⟨"a", some "0123456789"⟩ [⟨"b", some "123"⟩] "0123456789" rfl rfl rfl rfl
  exact h.mpr (by decide)

theorem strContains_append_left {x sub : String} (y : String)
    (h : strContains x sub) : strContains (x ++ y) sub := by
  obtain ⟨a, b, hab⟩ := h
  exact ⟨a, b ++ y, by rw [hab, String.append_assoc]⟩

theorem strContains_append_right {y sub : String} (x : String)
    (h : strContains y sub) : strContains (x ++ y) sub := by
  obtain ⟨a, b, hab⟩ := h
  refine ⟨x ++ a, b, ?_⟩
  rw [hab]
  simp [String.append_assoc]

theorem strContains_pyJoin_head (sep x : String) (rest : List String) {sub : String}
    (h : strContains x sub) : strContains (pyJoin sep (x :: rest)) sub := by
  cases rest with
  | nil => exact h
  | cons y t => exact strContains_append_left _ (strContains_append_left _ h)

theorem strContains_pyJoin_tail (sep x : String) {rest : List String} {sub : String}
    (hne : rest ≠ []) (h : strContains (pyJoin sep rest) sub) :
    strContains (pyJoin sep (x :: rest)) sub := by
  cases rest with
  | nil => exact absurd rfl hne
  | cons y t => exact strContains_append_right _ h

theorem build_summary_contains_emoji (r : ReviewOutcome) (m : Mode) (l : Language) :
    strContains (_build_summary_body r m l) (_score_emoji r.score) := by
  unfold _build_summary_body
  apply strContains_pyJoin_head
  exact ⟨_MARKER ++ "\n## SpicyDiff Review ", "\n", rfl⟩

theorem build_summary_contains_score (r : ReviewOutcome) (m : Mode) (l : Language) :
    strContains (_build_summary_body r m l) (toString r.score ++ "/100") := by
  unfold _build_summary_body
  apply strContains_pyJoin_tail _ _ (by simp)
  apply strContains_pyJoin_tail _ _ (by simp)
  apply strContains_pyJoin_head
  refine ⟨"**Score**: ", " " ++ _score_emoji r.score ++ "\n", ?_⟩
  have hf : ("/100 " : String) = "/100" ++ " " := rfl
  conv_lhs => rw [hf]
  simp only [String.append_assoc]

theorem build_summary_contains_summary (r : ReviewOutcome) (m : Mode) (l : Language) :
    strContains (_build_summary_body r m l) r.summary := by
  unfold _build_summary_body
  apply strContains_pyJoin_tail _ _ (by simp)
  apply strContains_pyJoin_tail _ _ (by simp)
  apply strContains_pyJoin_tail _ _ (by simp)
  apply strContains_pyJoin_tail _ _ (by simp)
  apply strContains_pyJoin_head
  exact ⟨"", "\n", rfl⟩

theorem fnvlAux_no_update (target maxD : Int) (l : List Int) :
    ∀ (best : Option Int) (bestDist : Int), (∀ x ∈ l, bestDist ≤ |x - target|) →
    fnvlAux target maxD l best bestDist = (best, bestDist) := by
  induction l with
  | nil => intro best bestDist _; rfl
  | cons x rest ih =>
    intro best bestDist h
    have hx : bestDist ≤ |x - target| := h x (by simp)
    rw [fnvlAux, if_neg (by omega)]
    exact ih best bestDist (fun y hy => h y (by simp [hy]))

/-- The scan of `_find_nearest_valid_line` returns the first element of the
list attaining the minimal distance, as soon as some element beats the
incoming best distance. -/
theorem fnvlAux_found (target maxD : Int) (l : List Int) :
    ∀ (best : Option Int) (bestDist : Int),
    (∃ x ∈ l, |x - target| < bestDist) →
    ∃ n pre post, l = pre ++ n :: post
      ∧ (fnvlAux target maxD l best bestDist).1 = some n
      ∧ (fnvlAux target maxD l best bestDist).2 = |n - target|
      ∧ |n - target| < bestDist
      ∧ (∀ x ∈ pre, |n - target| < |x - target|)
      ∧ (∀ x ∈ post, |n - target| ≤ |x - target|) := by
  induction l with
  | nil => intro best bestDist h; simp at h
  | cons x rest ih =>
    intro best bestDist h
    by_cases hx : |x - target| < bestDist
    · rw [fnvlAux, if_pos hx]
      by_cases hbetter : ∃ y ∈ rest, |y - target| < |x - target|
      · obtain ⟨n, pre, post, hsplit, h1, h2, h3, hpre, hpost⟩ :=
          ih (some x) |x - target| hbetter
        refine ⟨n, x :: pre, post, by rw [hsplit]; rfl, h1, h2, by omega, ?_, hpost⟩
        intro z hz
        rcases List.mem_cons.mp hz with hz | hz
        · rw [hz]; exact h3
        · exact hpre z hz
      · push_neg at hbetter
        rw [fnvlAux_no_update target maxD rest (some x) |x - target| hbetter]
        exact ⟨x, [], rest, rfl, rfl, rfl, hx, by simp, hbetter⟩
    · obtain ⟨y, hy, hyd⟩ := h
      have hyrest : y ∈ rest := by
        rcases List.mem_cons.mp hy with h' | h'
        · rw [h'] at hyd; omega
        · exact h'
      rw [fnvlAux, if_neg hx]
      obtain ⟨n, pre, post, hsplit, h1, h2, h3, hpre, hpost⟩ :=
        ih best bestDist ⟨y, hyrest, hyd⟩
      refine ⟨n, x :: pre, post, by rw [hsplit]; rfl, h1, h2, h3, ?_, hpost⟩
      intro z hz
      rcases List.mem_cons.mp hz with hz | hz
      · rw [hz]; omega
      · exact hpre z hz

/-- `_find_nearest_valid_line` at distance bound 5: `none` when all valid
lines are farther than 5, otherwise the first valid line (in iteration
order) at minimal distance. -/
theorem find_nearest_spec (target : Int) (valid : List Int) :
    ((∀ x ∈ valid, 5 < |x - target|) → _find_nearest_valid_line target valid 5 = none)
  ∧ ((∃ x ∈ valid, |x - target| ≤ 5) →
      ∃ n pre post, valid = pre ++ n :: post
        ∧ _find_nearest_valid_line target valid 5 = some n
        ∧ |n - target| ≤ 5
        ∧ (∀ x ∈ pre, |n - target| < |x - target|)
        ∧ (∀ x ∈ valid, |n - target| ≤ |x - target|)) := by
  constructor
  · intro h
    unfold _find_nearest_valid_line
    by_cases hv : valid = []
    · rw [if_pos hv]
    · rw [if_neg hv]
      have hnu := fnvlAux_no_update target 5 valid none ((5 : Int) + 1)
        (fun x hx => by have := h x hx; omega)
      rw [hnu]
      norm_num
  · rintro ⟨x0, hx0, hd0⟩
    have hv : valid ≠ [] := by
      intro h
      rw [h] at hx0
      simp at hx0
    unfold _find_nearest_valid_line
    rw [if_neg hv]
    obtain ⟨n, pre, post, hsplit, h1, h2, h3, hpre, hpost⟩ :=
      fnvlAux_found target 5 valid none ((5 : Int) + 1) ⟨x0, hx0, by omega⟩
    refine ⟨n, pre, post, hsplit, ?_, by omega, hpre, ?_⟩
    · show (if (fnvlAux target 5 valid none ((5 : Int) + 1)).2 ≤ 5 then
          (fnvlAux target 5 valid none ((5 : Int) + 1)).1 else none) = some n
      rw [h2, if_pos (by omega : |n - target| ≤ (5 : Int)), h1]
    · intro x hx
      rw [hsplit] at hx
      rcases List.mem_append.mp hx with h' | h'
      · have := hpre x h'
        omega
      · rcases List.mem_cons.mp h' with h'' | h''
        · rw [h'']
        · exact hpost x h''

/-- C4: the payload loop of `post_inline_comments` processes reviews
independently (a dropped comment never blocks the rest); a claimed line that
is an actually-added line is kept unchanged; otherwise it snaps to the
nearest added line of the same file within distance 5, ties resolved to the
first found in iteration order; with no added line within 5 the single
comment is dropped. -/
theorem c4_line_reconciliation (changed : String → List Int) :
    (∀ (rev : RawInlineReview) (rest : List RawInlineReview),
      build_comments_payload changed (rev :: rest)
        = processInlineReview changed rev ++ build_comments_payload changed rest)
  ∧ (∀ rev : RawInlineReview,
      (rev.line_number ∈ changed rev.file_path →
        processInlineReview changed rev
          = [⟨rev.file_path, rev.line_number, inline_body rev.comment⟩])
    ∧ (rev.line_number ∉ changed rev.file_path →
        (∃ x ∈ changed rev.file_path, |x - rev.line_number| ≤ 5) →
        ∃ n pre post, changed rev.file_path = pre ++ n :: post
          ∧ processInlineReview changed rev
              = [⟨rev.file_path, n, inline_body rev.comment⟩]
          ∧ |n - rev.line_number| ≤ 5
          ∧ (∀ x ∈ pre, |n - rev.line_number| < |x - rev.line_number|)
          ∧ (∀ x ∈ changed rev.file_path,
              |n - rev.line_number| ≤ |x - rev.line_number|))
    ∧ ((∀ x ∈ changed rev.file_path, 5 < |x - rev.line_number|) →
        processInlineReview changed rev = [])) := by
  constructor
  · intro rev rest
    simp [build_comments_payload]
  · intro rev
    refine ⟨fun hmem => ?_, fun hnot hex => ?_, fun hfar => ?_⟩
    · unfold processInlineReview
      rw [if_pos hmem]
    · obtain ⟨n, pre, post, hsplit, hfind, hd, hpre, hall⟩ :=
        (find_nearest_spec rev.line_number (changed rev.file_path)).2 hex
      refine ⟨n, pre, post, hsplit, ?_, hd, hpre, hall⟩
      unfold processInlineReview
      rw [if_neg hnot, hfind]
    · have hnot : rev.line_number ∉ changed rev.file_path := by
        intro hmem
        have := hfar rev.line_number hmem
        simp at this
      unfold processInlineReview
      rw [if_neg hnot, (find_nearest_spec rev.line_number (changed rev.file_path)).1 hfar]

/-- Witness for C4: with valid lines `[10, 3]`, a claimed line 5 snaps to the
nearest valid line 3, and a claimed line 20 (nothing within 5) is dropped. -/
theorem c4_line_reconciliation_witness :
    processInlineReview (fun _ => [10, 3]) ⟨"a.py", 5, "c"⟩
      = [⟨"a.py", 3, inline_body "c"⟩]
    ∧ processInlineReview (fun _ => [10, 3]) ⟨"a.py", 20, "c"⟩ = [] := by
  constructor
  · obtain ⟨n, pre, post, hsplit, heq, hd, hpre, hall⟩ :=
      ((c4_line_reconciliation (fun _ => [10, 3])).2 ⟨"a.py", 5, "c"⟩).2.1
        (by decide) ⟨3, by decide, by decide⟩
    have hn : n ∈ ([10, 3] : List Int) := by
      have hmem : n ∈ pre ++ n :: post := by simp
      rw [← hsplit] at hmem
      exact hmem
    have h3 : |n - (5 : Int)| ≤ |(3 : Int) - 5| := hall 3 (by decide)
    have hn3 : n = 3 := by
      rcases List.mem_cons.mp hn with h' | h'
      · rw [h'] at h3
        norm_num at h3
      · simpa using h'
    rw [hn3] at heq
    exact heq
  · exact ((c4_line_reconciliation (fun _ => [10, 3])).2 ⟨"a.py", 20, "c"⟩).2.2
      (by decide)

/-- C10: for every score in `[0, 100]` — exactly the scores schema validation
admits — the emoji table returns a non-empty emoji (the five ranges cover
0..100 with no gap), and every summary body built from such a result contains
that emoji. -/
theorem c10_score_emoji_total (score : Int) (h0 : 0 ≤ score) (h1 : score ≤ 100) :
    _score_emoji score ≠ ""
  ∧ ∀ (r : ReviewOutcome) (m : Mode) (l : Language), r.score = score →
      strContains (_build_summary_body r m l) (_score_emoji score) := by
  constructor
  · unfold _score_emoji
    split_ifs with hc1 hc2 hc3 hc4 hc5
    · decide
    · decide
    · decide
    · decide
    · decide
    · omega
  · intro r m l hsc
    rw [← hsc]
    exact build_summary_contains_emoji r m l

/-- Witness for C10 at score 70. -/
theorem c10_score_emoji_total_witness :
    _score_emoji 70 ≠ ""
    ∧ strContains (_build_summary_body ⟨"s", 70, [], []⟩ Mode.ROAST Language.EN)
        (_score_emoji 70) := by
  have h := c10_score_emoji_total 70 (by decide) (by decide)
  exact ⟨h.1, h.2 ⟨"s", 70, [], []⟩ Mode.ROAST Language.EN rfl⟩

theorem postPhase_snd (cfg : RunCfg) (sr : List RunEvent × Option ReviewOutcome) :
    (postPhase cfg sr).2 = sr.2 := by
  obtain ⟨evs, o⟩ := sr
  cases o with
  | none => rfl
  | some outcome =>
    by_cases h : cfg.dry_run <;> simp [postPhase, h]

theorem llmCalls_append (a b : List RunEvent) :
    llmCalls (a ++ b) = llmCalls a ++ llmCalls b := by
  simp [llmCalls]

theorem llmCalls_postPhase (cfg : RunCfg) (sr : List RunEvent × Option ReviewOutcome) :
    llmCalls (postPhase cfg sr).1 = llmCalls sr.1 := by
  obtain ⟨evs, o⟩ := sr
  cases o with
  | none => rfl
  | some outcome =>
    by_cases h : cfg.dry_run
    · simp [postPhase, h]
    · simp [postPhase, h, llmCalls_append, llmCalls]

theorem multi_file_aux_only_llm (oracle : Nat → Option RawReviewResult)
    (files : List FileDiff) :
    ∀ (k : Nat) (evs : List RunEvent) (revs : List RawInlineReview)
      (sums : List FileReviewSummary),
    (∀ e ∈ evs, isPostEvent e = false) →
    ∀ e ∈ (_multi_file_aux oracle files k evs revs sums).1, isPostEvent e = false := by
  induction files with
  | nil =>
    intro k evs revs sums hevs
    simpa [_multi_file_aux] using hevs
  | cons fd rest ih =>
    intro k evs revs sums hevs e he
    have hstep : ∀ e' ∈ evs ++ [RunEvent.llmCall (.fileReview fd.path)],
        isPostEvent e' = false := by
      intro e' he'
      rcases List.mem_append.mp he' with h' | h'
      · exact hevs e' h'
      · simp only [List.mem_singleton] at h'
        rw [h']
        rfl
    rcases hc : call_llm (oracle k) with _ | r
    · rw [_multi_file_aux, hc] at he
      exact hstep e he
    · rw [_multi_file_aux, hc] at he
      exact ih (k + 1) _ _ _ hstep e he

theorem selectStrategy_only_llm (oracle : Nat → Option RawReviewResult)
    (files : List FileDiff) :
    ∀ e ∈ (selectStrategy oracle files).1, isPostEvent e = false := by
  intro e he
  unfold selectStrategy at he
  by_cases hlen : files.length ≤ MULTI_FILE_THRESHOLD
  · rw [if_pos hlen] at he
    rcases hc : call_llm (oracle 0) with _ | r <;>
      · rw [show _single_pass_review oracle
            = ([.llmCall .singlePass], call_llm (oracle 0)) from rfl, hc] at he
        simp only [List.mem_singleton] at he
        rw [he]
        rfl
  · rw [if_neg hlen] at he
    unfold _multi_file_review at he
    rcases haux : _multi_file_aux oracle files 0 [] [] [] with ⟨evs, res, k⟩
    have hevs : ∀ e' ∈ evs, isPostEvent e' = false := by
      intro e' he'
      have := multi_file_aux_only_llm oracle files 0 [] [] [] (by simp)
      rw [haux] at this
      exact this e' he'
    rw [haux] at he
    have hmerge : ∀ e' ∈ evs ++ [RunEvent.llmCall .mergeSummary],
        isPostEvent e' = false := by
      intro e' he'
      rcases List.mem_append.mp he' with h' | h'
      · exact hevs e' h'
      · simp only [List.mem_singleton] at h'
        rw [h']
        rfl
    rcases res with _ | ⟨revs, sums⟩
    · exact hevs e he
    · dsimp only at he
      rcases hc : call_llm (oracle k) with _ | m <;>
        · rw [hc] at he
          dsimp only at he
          exact hmerge e he

/-- C3: pydantic validation of LLM output rejects a score outside `[0, 100]`,
an empty summary, an empty comment or a line number below 1 as a hard failure
that aborts the call; validation never modifies (clamps or defaults) an
accepted result; an aborted run performs no posting call; and a single-pass
run whose LLM response has score 150 aborts. -/
theorem c3_schema_validation :
    (∀ r : RawReviewResult,
      (r.score < 0 ∨ 100 < r.score ∨ r.summary = ""
        ∨ ∃ rev ∈ r.reviews, rev.comment = "" ∨ rev.line_number < 1) →
      call_llm (some r) = none)
  ∧ (∀ r r' : RawReviewResult, call_llm (some r) = some r' → r' = r)
  ∧ (∀ (cfg : RunCfg) (oracle : Nat → Option RawReviewResult) (d : PRDiff),
      (runPipeline cfg oracle d).2 = none →
      ∀ e ∈ (runPipeline cfg oracle d).1, isPostEvent e = false)
  ∧ (∀ (cfg : RunCfg) (oracle : Nat → Option RawReviewResult) (d : PRDiff)
      (r : RawReviewResult), d.files ≠ [] → d.files.length ≤ 3 →
      oracle 0 = some r → r.score = 150 → (runPipeline cfg oracle d).2 = none) := by
  refine ⟨?_, ?_, ?_, ?_⟩
  · intro r hbad
    have hfalse : validReviewResult r = false := by
      by_contra hne
      have htrue : validReviewResult r = true := by
        cases h' : validReviewResult r with
        | false => exact absurd h' hne
        | true => rfl
      simp only [validReviewResult, Bool.and_eq_true, decide_eq_true_eq,
        List.all_eq_true] at htrue
      obtain ⟨⟨⟨hsum, hge⟩, hle⟩, hrev⟩ := htrue
      rcases hbad with h | h | h | ⟨rev, hmem, h⟩
      · omega
      · omega
      · rw [h] at hsum
        simp at hsum
      · have := hrev rev hmem
        simp only [validInlineReview, Bool.and_eq_true, decide_eq_true_eq] at this
        rcases h with h | h
        · rw [h] at this
          simp at this
        · omega
    simp [call_llm, hfalse]
  · intro r r' h
    by_cases hv : validReviewResult r = true
    · simp only [call_llm, hv, if_true, Option.some.injEq] at h
      exact h.symm
    · simp [call_llm, hv] at h
  · intro cfg oracle d habort e he
    unfold runPipeline at habort he
    by_cases hd : d.files = []
    · rw [if_pos hd] at he
      simp at he
    · rw [if_neg hd] at habort he
      rcases hsr : selectStrategy oracle d.files with ⟨evs, res⟩
      rcases res with _ | o
      · rw [hsr] at he
        have : e ∈ evs := he
        have h' := selectStrategy_only_llm oracle d.files e
        rw [hsr] at h'
        exact h' this
      · rw [hsr] at habort
        have := postPhase_snd cfg (evs, some o)
        rw [habort] at this
        simp at this
  · intro cfg oracle d r hne hlen h0 hs
    unfold runPipeline
    rw [if_neg hne]
    rw [postPhase_snd]
    unfold selectStrategy
    rw [if_pos (show d.files.length ≤ MULTI_FILE_THRESHOLD from hlen)]
    have hcall : call_llm (oracle 0) = none := by
      rw [h0]
      have hfalse : validReviewResult r = false := by
        by_contra hne'
        have htrue : validReviewResult r = true := by
          cases h' : validReviewResult r with
          | false => exact absurd h' hne'
          | true => rfl
        simp only [validReviewResult, Bool.and_eq_true, decide_eq_true_eq] at htrue
        omega
      simp [call_llm, hfalse]
    rw [show _single_pass_review oracle
        = ([.llmCall .singlePass], call_llm (oracle 0)) from rfl, hcall]

/-- Witness for C3: a concrete single-pass run whose LLM response carries
score 150 aborts and posts nothing. -/
theorem c3_schema_validation_witness :
    (runPipeline c1cfg (fun _ => some ⟨"Hi", 150, []⟩) c1diff).2 = none
    ∧ ∀ e ∈ (runPipeline c1cfg (fun _ => some ⟨"Hi", 150, []⟩) c1diff).1,
        isPostEvent e = false := by
  have habort := c3_schema_validation.2.2.2 c1cfg (fun _ => some ⟨"Hi", 150, []⟩)
    c1diff ⟨"Hi", 150, []⟩ (by decide) (by decide) rfl rfl
  exact ⟨habort, c3_schema_validation.2.2.1 c1cfg _ c1diff habort⟩

theorem llmCalls_map_fileReview (files : List FileDiff) :
    llmCalls (files.map (fun f => RunEvent.llmCall (LlmCallKind.fileReview f.path)))
      = files.map (fun f => LlmCallKind.fileReview f.path) := by
  induction files with
  | nil => rfl
  | cons x xs ih =>
    simp only [List.map_cons, llmCalls, List.filterMap_cons] at ih ⊢
    rw [ih]

theorem multi_file_aux_trace (oracle : Nat → Option RawReviewResult)
    (files : List FileDiff) :
    ∀ (k : Nat) (evs : List RunEvent) (revs : List RawInlineReview)
      (sums : List FileReviewSummary),
    (∀ j, j < files.length → (call_llm (oracle (k + j))).isSome = true) →
    ∃ revs' sums', _multi_file_aux oracle files k evs revs sums
      = (evs ++ files.map (fun f => RunEvent.llmCall (.fileReview f.path)),
         some (revs', sums'), k + files.length) := by
  induction files with
  | nil =>
    intro k evs revs sums _
    exact ⟨revs, sums, by simp [_multi_file_aux]⟩
  | cons fd rest ih =>
    intro k evs revs sums h
    have h0 : (call_llm (oracle k)).isSome = true := by
      have := h 0 (by simp)
      simpa using this
    obtain ⟨r, hr⟩ := Option.isSome_iff_exists.mp h0
    obtain ⟨revs', sums', heq⟩ := ih (k + 1)
      (evs ++ [RunEvent.llmCall (.fileReview fd.path)]) (revs ++ r.reviews)
      (sums ++ [⟨fd.path, r.score, r.summary, r.reviews.length⟩])
      (fun j hj => by
        have := h (j + 1) (by simpa using Nat.succ_lt_succ hj)
        have harith : k + (j + 1) = k + 1 + j := by omega
        rwa [harith] at this)
    refine ⟨revs', sums', ?_⟩
    rw [_multi_file_aux, hr]
    dsimp only
    rw [heq]
    have hl : (evs ++ [RunEvent.llmCall (.fileReview fd.path)])
        ++ rest.map (fun f => RunEvent.llmCall (.fileReview f.path))
        = evs ++ (fd :: rest).map (fun f => RunEvent.llmCall (.fileReview f.path)) := by
      simp
    have hk : k + 1 + rest.length = k + (fd :: rest).length := by
      simp
      omega
    rw [hl, hk]

/-- C5: at most 3 files selects single-pass review — exactly one LLM call
whose validated result is used verbatim; more than 3 files selects
multi-file review — one per-file call per file in file order followed by
exactly one merge call issued after every per-file call (the trace order is
the execution order). -/
theorem c5_strategy (cfg : RunCfg) (oracle : Nat → Option RawReviewResult)
    (d : PRDiff) (hne : d.files ≠ []) :
    (d.files.length ≤ 3 →
      llmCalls (runPipeline cfg oracle d).1 = [.singlePass]
      ∧ ∀ r, oracle 0 = some r → validReviewResult r = true →
          ∃ o, (runPipeline cfg oracle d).2 = some o
            ∧ o.summary = r.summary ∧ o.score = r.score ∧ o.reviews = r.reviews)
  ∧ (3 < d.files.length →
      (∀ i, i ≤ d.files.length → (call_llm (oracle i)).isSome = true) →
      llmCalls (runPipeline cfg oracle d).1
        = d.files.map (fun f => LlmCallKind.fileReview f.path) ++ [.mergeSummary]) := by
  constructor
  · intro hlen
    constructor
    · unfold runPipeline
      rw [if_neg hne, llmCalls_postPhase]
      unfold selectStrategy
      rw [if_pos (by simpa [MULTI_FILE_THRESHOLD] using hlen)]
      rcases hc : call_llm (oracle 0) with _ | r <;>
        · rw [show _single_pass_review oracle
              = ([.llmCall .singlePass], call_llm (oracle 0)) from rfl, hc]
          rfl
    · intro r h0 hv
      unfold runPipeline
      rw [if_neg hne, postPhase_snd]
      unfold selectStrategy
      rw [if_pos (by simpa [MULTI_FILE_THRESHOLD] using hlen)]
      have hc : call_llm (oracle 0) = some r := by
        rw [h0]
        simp [call_llm, hv]
      rw [show _single_pass_review oracle
          = ([.llmCall .singlePass], call_llm (oracle 0)) from rfl, hc]
      exact ⟨⟨r.summary, r.score, r.reviews, []⟩, rfl, rfl, rfl, rfl⟩
  · intro hlen hok
    unfold runPipeline
    rw [if_neg hne, llmCalls_postPhase]
    unfold selectStrategy
    rw [if_neg (by simp [MULTI_FILE_THRESHOLD]; omega)]
    obtain ⟨revs', sums', haux⟩ := multi_file_aux_trace oracle d.files 0 [] [] []
      (fun j hj => by simpa using hok j (by omega))
    unfold _multi_file_review
    rw [haux]
    dsimp only
    have hmerge : (call_llm (oracle (0 + d.files.length))).isSome = true := by
      simpa using hok d.files.length (le_refl _)
    obtain ⟨m, hm⟩ := Option.isSome_iff_exists.mp hmerge
    rw [hm]
    simp only [List.nil_append, llmCalls_append, llmCalls_map_fileReview]
    rfl

/-- Witness for C5: a 2-file PR issues exactly the single whole-PR call; a
5-file PR issues the five per-file calls in order then the merge call. -/
theorem c5_strategy_witness :
    llmCalls (runPipeline c1cfg (fun _ => some ⟨"ok", 50, []⟩)
        ⟨[⟨"a", "", []⟩, ⟨"b", "", []⟩], false⟩).1 = [.singlePass]
    ∧ llmCalls (runPipeline c1cfg (fun _ => some ⟨"ok", 50, []⟩)
        ⟨[⟨"a", "", []⟩, ⟨"b", "", []⟩, ⟨"c", "", []⟩, ⟨"d", "", []⟩,
          ⟨"e", "", []⟩], false⟩).1
      = [.fileReview "a", .fileReview "b", .fileReview "c", .fileReview "d",
         .fileReview "e", .mergeSummary] := by
  constructor
  · exact ((c5_strategy c1cfg (fun _ => some ⟨"ok", 50, []⟩)
      ⟨[⟨"a", "", []⟩, ⟨"b", "", []⟩], false⟩ (by decide)).1 (by decide)).1
  · have h := (c5_strategy c1cfg (fun _ => some ⟨"ok", 50, []⟩)
      ⟨[⟨"a", "", []⟩, ⟨"b", "", []⟩, ⟨"c", "", []⟩, ⟨"d", "", []⟩,
        ⟨"e", "", []⟩], false⟩ (by decide)).2 (by decide) (fun i _ => rfl)
    simpa using h

/-- C1 evaluated on the code: for the one-file PR with two added lines and
the mocked LLM response `summary "Fine", score 70, one inline review at
a.py:2`, the single-pass run posts a summary comment containing `Fine` and
`70/100` but posts NO inline comment — `run` never calls
`post_inline_comments` — even though the payload builder of
`post_inline_comments` would have produced exactly one inline comment at
a.py line 2. -/
theorem c1_run_posts_summary_only :
    (∃ body, RunEvent.postSummary body ∈ (runPipeline c1cfg c1oracle c1diff).1
      ∧ strContains body "Fine" ∧ strContains body "70/100")
  ∧ (∀ path line body,
      RunEvent.postInline path line body ∉ (runPipeline c1cfg c1oracle c1diff).1)
  ∧ build_comments_payload c1diff.changed_line_map c1resp.reviews
      = [⟨"a.py", 2, inline_body "ok"⟩] := by
  have h1 : (runPipeline c1cfg c1oracle c1diff).1
      = [RunEvent.llmCall .singlePass,
         RunEvent.postSummary (_build_summary_body
           ⟨"Fine", 70, [⟨"a.py", 2, "ok"⟩], []⟩ Mode.ROAST Language.EN)] := rfl
  refine ⟨⟨_build_summary_body ⟨"Fine", 70, [⟨"a.py", 2, "ok"⟩], []⟩
      Mode.ROAST Language.EN, ?_, ?_, ?_⟩, ?_, rfl⟩
  · rw [h1]
    simp
  · exact build_summary_contains_summary ⟨"Fine", 70, [⟨"a.py", 2, "ok"⟩], []⟩
      Mode.ROAST Language.EN
  · have h2 : ("70/100" : String) = toString (70 : Int) ++ "/100" := by decide
    rw [h2]
    exact build_summary_contains_score ⟨"Fine", 70, [⟨"a.py", 2, "ok"⟩], []⟩
      Mode.ROAST Language.EN
  · intro path line body hmem
    rw [h1] at hmem
    simp at hmem

theorem dropWhile_head_not (p : Char → Bool) :
    ∀ (l : List Char) {c : Char} {cs : List Char},
    l.dropWhile p = c :: cs → p c = false := by
  intro l
  induction l with
  | nil =>
    intro c cs h
    simp [List.dropWhile] at h
  | cons x xs ih =>
    intro c cs h
    rw [List.dropWhile_cons] at h
    by_cases hx : p x = true
    · rw [if_pos hx] at h
      exact ih h
    · rw [if_neg hx] at h
      obtain ⟨h1, _⟩ := List.cons.inj h
      rw [← h1]
      cases hpx : p x with
      | false => rfl
      | true => exact absurd hpx hx

theorem dropWhile_append_ne (p : Char → Bool) (c : Char) (hc : p c = false) :
    ∀ xs : List Char, List.dropWhile p (xs ++ [c]) ≠ [] := by
  intro xs
  induction xs with
  | nil => simp [List.dropWhile, hc]
  | cons x xs ih =>
    rw [List.cons_append, List.dropWhile_cons]
    by_cases hx : p x = true
    · rw [if_pos hx]
      exact ih
    · rw [if_neg hx]
      simp

theorem isBlank_dropWhile {line : String} (h : isBlank line = true) :
    line.toList.dropWhile isPySpace = [] := by
  rcases hd : line.toList.dropWhile isPySpace with _ | ⟨c, cs⟩
  · rfl
  · exfalso
    have hc : isPySpace c = false := dropWhile_head_not isPySpace _ hd
    unfold isBlank pyStripList at h
    rw [hd] at h
    have hrev : (c :: cs).reverse = cs.reverse ++ [c] := by simp
    rw [hrev] at h
    have hne := dropWhile_append_ne isPySpace c hc cs.reverse
    rcases he : (cs.reverse ++ [c]).dropWhile isPySpace with _ | ⟨d, ds⟩
    · exact hne he
    · rw [he] at h
      simp at h

theorem blank_no_pattern {line : String} (h : isBlank line = true) :
    matchesBlockPattern line = false := by
  have hd := isBlank_dropWhile h
  unfold matchesBlockPattern
  rw [hd]
  rfl

theorem lastPatternBelow_succ (lines : List String) (i : Nat) :
    lastPatternBelow lines (i + 1)
      = if matchesBlockPattern (lines.getD i "") then some i
        else lastPatternBelow lines i := by
  unfold lastPatternBelow
  rw [List.range_succ]
  have hrev : (List.range i ++ [i]).reverse = i :: (List.range i).reverse := by simp
  rw [hrev, List.find?_cons]
  cases h : matchesBlockPattern (lines.getD i "") <;> simp

theorem firstShallowBelow_succ (lines : List String) (tInd i : Nat) :
    firstShallowBelow lines tInd (i + 1)
      = (firstShallowBelow lines tInd i).or
          (if !(isBlank (lines.getD i ""))
              && decide (_get_indent (lines.getD i "") < tInd)
           then some i else none) := by
  unfold firstShallowBelow
  rw [List.range_succ, List.find?_append]
  congr 1
  rw [List.find?_cons]
  cases h : !(isBlank (lines.getD i ""))
      && decide (_get_indent (lines.getD i "") < tInd) <;> simp

/-- Characterisation of the backward scan: the nearest block-pattern line
below the start index wins and stops the scan; otherwise the earliest
(last-found) shallower-indented non-blank line; otherwise the fallback. -/
theorem backScanAux_spec (lines : List String) (tInd : Nat) :
    ∀ (i bs : Nat),
    backScanAux lines tInd i bs
      = match lastPatternBelow lines i with
        | some p => p
        | none => (firstShallowBelow lines tInd i).getD bs := by
  intro i
  induction i with
  | zero =>
    intro bs
    rfl
  | succ i ih =>
    intro bs
    rw [lastPatternBelow_succ, firstShallowBelow_succ, backScanAux]
    by_cases hb : isBlank (lines.getD i "") = true
    · have hp : matchesBlockPattern (lines.getD i "") = false := blank_no_pattern hb
      have hnp : ¬(matchesBlockPattern (lines.getD i "") = true) := by
        intro h
        rw [h] at hp
        exact Bool.noConfusion hp
      rw [if_pos hb, if_neg hnp]
      have hcond : ¬((!(isBlank (lines.getD i ""))
          && decide (_get_indent (lines.getD i "") < tInd)) = true) := by
        rw [hb]
        simp
      rw [if_neg hcond, Option.or_none]
      exact ih bs
    · have hb' : isBlank (lines.getD i "") = false := by
        cases h' : isBlank (lines.getD i "") with
        | false => rfl
        | true => exact absurd h' hb
      by_cases hp : matchesBlockPattern (lines.getD i "") = true
      · rw [if_neg hb, if_pos hp, if_pos hp]
      · by_cases hs : _get_indent (lines.getD i "") < tInd
        · rw [if_neg hb, if_neg hp, if_pos hs, if_neg hp]
          have hcond : ((!(isBlank (lines.getD i ""))
              && decide (_get_indent (lines.getD i "") < tInd)) = true) := by
            rw [hb']
            simp only [Bool.not_false, Bool.true_and, decide_eq_true_eq]
            exact hs
          rw [if_pos hcond, ih i]
          rcases lastPatternBelow lines i with _ | p
          · dsimp only
            rcases hf : firstShallowBelow lines tInd i with _ | s <;> simp [hf]
          · rfl
        · rw [if_neg hb, if_neg hp, if_neg hs, if_neg hp]
          have hcond : ¬((!(isBlank (lines.getD i ""))
              && decide (_get_indent (lines.getD i "") < tInd)) = true) := by
            rw [hb']
            simp only [Bool.not_false, Bool.true_and, decide_eq_true_eq]
            exact hs
          rw [if_neg hcond, Option.or_none]
          exact ih bs

/-- C9 counterexample: with lines `["a", "  b", "    c"]` and target index 2,
the first line found scanning backward that is at shallower indentation or
matches a block pattern is index 1 (`"  b"`), yet the code's block start is
index 0 — the scan keeps overwriting the candidate with every shallower line
it passes, so the last-found line wins, not the first. -/
theorem c9_counterexample :
    isBlank "  b" = false
    ∧ matchesBlockPattern "  b" = false
    ∧ _get_indent "  b" < _get_indent "    c"
    ∧ (_find_enclosing_block ["a", "  b", "    c"] 2).1 = 0 := by
  decide

/-- C9 (amended): in the backward scan, the candidate block start is the
nearest line below the start index that matches a block-introducer pattern —
the scan stops immediately there, so a pattern match wins over the
indentation heuristic; when no pattern line exists, the candidate is the
earliest (farthest from the target, i.e. the last found) non-blank line at
shallower indentation than the target, defaulting to the fallback index. -/
theorem c9_backward_scan_amended (lines : List String) (tInd t : Nat) :
    (backScanAux lines tInd t t
      = match lastPatternBelow lines t with
        | some p => p
        | none => (firstShallowBelow lines tInd t).getD t)
    ∧ (∀ p, lastPatternBelow lines t = some p → backScanAux lines tInd t t = p)
    ∧ (lastPatternBelow lines t = none →
        backScanAux lines tInd t t = (firstShallowBelow lines tInd t).getD t) := by
  refine ⟨backScanAux_spec lines tInd t t, ?_, ?_⟩
  · intro p hp
    rw [backScanAux_spec, hp]
  · intro hnone
    rw [backScanAux_spec, hnone]

/-- Witness for the amended C9: in `["def foo():", "    x = 1"]` the scan
from index 1 stops at the pattern line 0. -/
theorem c9_backward_scan_amended_witness :
    backScanAux ["def foo():", "    x = 1"] 4 1 1 = 0 :=
  (c9_backward_scan_amended ["def foo():", "    x = 1"] 4 1).2.1 0 (by decide)

theorem partsWeight_append (a b : List String) :
    partsWeight (a ++ b) = partsWeight a + partsWeight b := by
  simp [partsWeight]

theorem partWeight_le (p : String) : partWeight p ≤ p.length := by
  unfold partWeight
  by_cases h : p = truncMarker <;> simp [h]

/-- Budget invariant of the inner context-builder loop: the non-marker
content never outgrows the running total nor the budget, and the truncated
flag comes with the marker as last appended part. -/
theorem buildRangeAux_inv (lines : List String) (max_chars : Nat) :
    ∀ (idxs : List Nat) (parts : List String) (total : Nat),
    partsWeight parts ≤ total → partsWeight parts ≤ max_chars →
    partsWeight (buildRangeAux lines max_chars idxs parts total).1
        ≤ (buildRangeAux lines max_chars idxs parts total).2.1
    ∧ partsWeight (buildRangeAux lines max_chars idxs parts total).1 ≤ max_chars
    ∧ ((buildRangeAux lines max_chars idxs parts total).2.2 = true →
        ∃ ps, (buildRangeAux lines max_chars idxs parts total).1 = ps ++ [truncMarker]) := by
  intro idxs
  induction idxs with
  | nil =>
    intro parts total h1 h2
    refine ⟨h1, h2, ?_⟩
    intro h
    exact absurd h (by simp [buildRangeAux])
  | cons i rest ih =>
    intro parts total h1 h2
    rw [buildRangeAux]
    by_cases hbud : max_chars < total + (contextLine i (lines.getD i "")).length
    · rw [if_pos hbud]
      have hw : partsWeight (parts ++ [truncMarker]) = partsWeight parts := by
        rw [partsWeight_append]
        simp [partsWeight, partWeight]
      exact ⟨by rw [hw]; exact h1, by rw [hw]; exact h2, fun _ => ⟨parts, rfl⟩⟩
    · rw [if_neg hbud]
      have hlen := partWeight_le (contextLine i (lines.getD i ""))
      have hw : partsWeight (parts ++ [contextLine i (lines.getD i "")])
          = partsWeight parts + partWeight (contextLine i (lines.getD i "")) := by
        rw [partsWeight_append]
        simp [partsWeight]
      exact ih (parts ++ [contextLine i (lines.getD i "")])
        (total + (contextLine i (lines.getD i "")).length + 1)
        (by rw [hw]; omega) (by rw [hw]; omega)

/-- Budget invariant of the outer context-builder loop over merged ranges. -/
theorem buildParts_inv (lines : List String) (max_chars : Nat) :
    ∀ (ranges : List (Nat × Nat)) (parts : List String) (total : Nat),
    partsWeight parts ≤ total → partsWeight parts ≤ max_chars →
    partsWeight (buildParts lines max_chars ranges parts total).1 ≤ max_chars
    ∧ ((buildParts lines max_chars ranges parts total).2 = true →
        ∃ ps, (buildParts lines max_chars ranges parts total).1 = ps ++ [truncMarker]) := by
  intro ranges
  induction ranges with
  | nil =>
    intro parts total h1 h2
    refine ⟨h2, ?_⟩
    intro h
    exact absurd h (by simp [buildParts])
  | cons r rest ih =>
    intro parts total h1 h2
    obtain ⟨s, e⟩ := r
    rw [buildParts]
    rcases hr : buildRangeAux lines max_chars
        (List.range' s (min (e + 1) lines.length - s)) parts total with ⟨parts', total', flag⟩
    have hinv := buildRangeAux_inv lines max_chars
      (List.range' s (min (e + 1) lines.length - s)) parts total h1 h2
    rw [hr] at hinv
    cases flag with
    | true =>
      dsimp only
      exact ⟨hinv.2.1, fun _ => hinv.2.2 rfl⟩
    | false =>
      dsimp only
      have hw : partsWeight (parts' ++ [""]) = partsWeight parts' := by
        rw [partsWeight_append]
        simp [partsWeight, partWeight, truncMarker]
      exact ih (parts' ++ [""]) total' (by rw [hw]; exact hinv.1)
        (by rw [hw]; exact hinv.2.1)

theorem pyJoin_append_last (sep x : String) :
    ∀ ps : List String, ∃ a, pyJoin sep (ps ++ [x]) = a ++ x := by
  intro ps
  induction ps with
  | nil => exact ⟨"", rfl⟩
  | cons p ps ih =>
    cases ps with
    | nil => exact ⟨p ++ sep, rfl⟩
    | cons q qs =>
      obtain ⟨a, ha⟩ := ih
      refine ⟨p ++ sep ++ a, ?_⟩
      show p ++ sep ++ pyJoin sep ((q :: qs) ++ [x]) = p ++ sep ++ a ++ x
      rw [ha]
      simp [String.append_assoc]

theorem mem_sortedDedup {x : Nat} {l : List Nat} (h : x ∈ sortedDedup l) : x ∈ l := by
  unfold sortedDedup at h
  have hperm := List.perm_insertionSort (fun a b : Nat => a ≤ b) l.dedup
  rw [hperm.mem_iff] at h
  exact List.mem_dedup.mp h

/-- C8 counterexample: with source `"x"`, changed line 1 and a budget of 5
characters, the returned text is the 22-character truncation marker line —
the output exceeds the `max_chars` budget. -/
theorem c8_counterexample :
    extract_surrounding_context "x" [1] 5 = some truncMarker
    ∧ ∀ s, extract_surrounding_context "x" [1] 5 = some s → 5 < s.length := by
  constructor
  · decide
  · intro s hs
    have : s = truncMarker := by
      have h := hs.symm.trans (by decide : extract_surrounding_context "x" [1] 5
          = some truncMarker)
      exact Option.some.inj h
    rw [this]
    decide

/-- C8 (amended): `extract_surrounding_context` returns `none` (not an empty
string) when there are no changed lines, no source text, or no in-bounds
changed line yields a range; when the character ceiling is hit the output is
truncated immediately — the truncation marker is the final line — and the
total length of the numbered context lines (the marker line and blank
separators excluded) never exceeds `max_chars`, though the full returned text
can exceed the budget by the marker and separator lines. -/
theorem c8_extract_context_amended (full_source : String) (changed_lines : List Nat)
    (max_chars : Nat) :
    (changed_lines = [] →
      extract_surrounding_context full_source changed_lines max_chars = none)
  ∧ (full_source = "" →
      extract_surrounding_context full_source changed_lines max_chars = none)
  ∧ ((∀ n ∈ changed_lines, n < 1 ∨ (pySplitlines full_source).length < n) →
      extract_surrounding_context full_source changed_lines max_chars = none)
  ∧ (∀ parts, buildParts (pySplitlines full_source) max_chars
        (merge_ranges (contextRanges (pySplitlines full_source) changed_lines)) [] 0
        = (parts, true) →
      extract_surrounding_context full_source changed_lines max_chars
          = some (pyJoin "\n" parts)
      ∧ ∃ a, pyJoin "\n" parts = a ++ truncMarker)
  ∧ (∀ parts trunc, buildParts (pySplitlines full_source) max_chars
        (merge_ranges (contextRanges (pySplitlines full_source) changed_lines)) [] 0
        = (parts, trunc) → partsWeight parts ≤ max_chars) := by
  refine ⟨?_, ?_, ?_, ?_, ?_⟩
  · intro h
    unfold extract_surrounding_context
    rw [if_pos (Or.inl h)]
  · intro h
    unfold extract_surrounding_context
    rw [if_pos (Or.inr h)]
  · intro h
    have hcr : contextRanges (pySplitlines full_source) changed_lines = [] := by
      unfold contextRanges
      rw [List.filterMap_eq_nil]
      intro a ha
      rw [if_pos (h a (mem_sortedDedup ha))]
    unfold extract_surrounding_context
    by_cases h1 : changed_lines = [] ∨ full_source = ""
    · rw [if_pos h1]
    · rw [if_neg h1]
      by_cases h2 : pySplitlines full_source = []
      · rw [if_pos h2]
      · rw [if_neg h2, if_pos hcr]
  · intro parts hbp
    by_cases h1 : changed_lines = [] ∨ full_source = ""
    · exfalso
      have hcr : contextRanges (pySplitlines full_source) changed_lines = [] := by
        rcases h1 with h1 | h1
        · rw [h1]
          rfl
        · unfold contextRanges
          rw [List.filterMap_eq_nil]
          intro a _
          rw [h1]
          have : (pySplitlines "").length = 0 := rfl
          rw [if_pos (by omega)]
      rw [hcr] at hbp
      exact absurd hbp (by simp [merge_ranges, sortRanges, buildParts])
    · by_cases h2 : pySplitlines full_source = []
      · exfalso
        have hcr : contextRanges (pySplitlines full_source) changed_lines = [] := by
          unfold contextRanges
          rw [List.filterMap_eq_nil]
          intro a _
          rw [h2]
          rw [if_pos (by simp; omega)]
        rw [hcr] at hbp
        exact absurd hbp (by simp [merge_ranges, sortRanges, buildParts])
      · by_cases h3 : contextRanges (pySplitlines full_source) changed_lines = []
        · exfalso
          rw [h3] at hbp
          exact absurd hbp (by simp [merge_ranges, sortRanges, buildParts])
        · constructor
          · unfold extract_surrounding_context
            rw [if_neg h1, if_neg h2, if_neg h3, hbp]
          · have hinv := (buildParts_inv (pySplitlines full_source) max_chars
              (merge_ranges (contextRanges (pySplitlines full_source) changed_lines))
              [] 0 (by simp [partsWeight]) (by simp [partsWeight])).2
            rw [hbp] at hinv
            obtain ⟨ps, hps⟩ := hinv rfl
            have hps' : parts = ps ++ [truncMarker] := hps
            obtain ⟨a, ha⟩ := pyJoin_append_last "\n" truncMarker ps
            exact ⟨a, by rw [hps']; exact ha⟩
  · intro parts trunc hbp
    have hinv := (buildParts_inv (pySplitlines full_source) max_chars
      (merge_ranges (contextRanges (pySplitlines full_source) changed_lines))
      [] 0 (by simp [partsWeight]) (by simp [partsWeight])).1
    rw [hbp] at hinv
    exact hinv

/-- Witness for the amended C8: the `None` cases and the truncated case at
concrete inputs. -/
theorem c8_extract_context_amended_witness :
    extract_surrounding_context "some code" [] 3000 = none
    ∧ extract_surrounding_context "" [1] 3000 = none
    ∧ extract_surrounding_context "x" [42] 3000 = none
    ∧ extract_surrounding_context "x" [1] 5 = some (pyJoin "\n" [truncMarker]) := by
  refine ⟨(c8_extract_context_amended "some code" [] 3000).1 rfl,
    (c8_extract_context_amended "" [1] 3000).2.1 rfl,
    (c8_extract_context_amended "x" [42] 3000).2.2.1 (by decide), ?_⟩
  exact ((c8_extract_context_amended "x" [1] 5).2.2.2.1 [truncMarker] (by decide)).1

end SpicyDiff
